import Mathlib

/-
A shallow embedding of the graph-construction core of lib/Graph/Graph.cpp
(the glow neural-network compiler IR): the type pool, the Module (graph
container), the Function (subgraph), the node builders, erase, clone and
verify.  Heap identity of nodes and variables is modelled by a Nat id
allocated from a per-Module counter; machine floats (variable init values,
quantization scales) are never computed with in this file, only stored and
compared, so they are carried as Int.
-/

namespace Glow

/-- The element kinds used by Graph.cpp (ElemKind). -/
inductive ElemKind where
  | FloatTy
  | Int8QTy
  | IndexTy
  deriving DecidableEq

/-- A tensor type descriptor: element kind, ordered dimensions and the
quantization parameters (scale carried as Int, see the file comment). -/
structure GlowType where
  elemTy : ElemKind
  dims : List Nat
  scale : Int
  offset : Int
  deriving DecidableEq

/-- Type::isQuantizedType: only the Int8 quantized kind is quantized. -/
def GlowType.isQuantizedType (t : GlowType) : Bool :=
  t.elemTy == ElemKind.Int8QTy

/-- Modelled from the spec: Type::isEqual (Base/Type.h is not part of the
extracted source).  "Equality is structural" over element kind, the ordered
dimension sequence and the quantization parameters. -/
def GlowType.isEqual (a b : GlowType) : Bool := a == b

/-- An edge (NodeValue): a (producer, result-slot index) pair.  The producer
is a node or variable identity. -/
structure NodeValue where
  producer : Nat
  resNo : Nat
  deriving DecidableEq

/-- The elementwise binary operator variants of the ARITHMETIC_FUN_DEF
macro. -/
inductive ArithKind where
  | Add
  | Sub
  | Mul
  | Div
  | Max
  | Min
  | CmpLTE
  deriving DecidableEq

/-- Operator-node kinds embedded here (a subset of the closed set of node
classes of the source; the remaining kinds play no role in the claims). -/
inductive NodeKind where
  | Convolution
  | Concat
  | FullyConnected
  | BatchedAdd
  | Arith (op : ArithKind)
  deriving DecidableEq

/-- An operator node: identity, name, kind, result type, ordered input
edges, the optional predicate edge, the operator-specific scalar parameters
(kernel, stride, pad, depth, axis, ...), and its node-local consistency
check.  The localOk field is modelled from the spec: Node::verify (the
per-kind attribute-invariant check lives in generated code outside the
extracted source), abstracted as an uninterpreted per-node verdict. -/
structure OpNode where
  id : Nat
  name : String
  kind : NodeKind
  ty : GlowType
  inputs : List NodeValue
  predicate : Option NodeValue
  params : List Nat
  localOk : Bool
  deriving DecidableEq

/-- Variable::VisibilityKind. -/
inductive VisibilityKind where
  | Public
  | Private
  deriving DecidableEq

/-- Variable::TrainKind. -/
inductive TrainKind where
  | None
  | Broadcast
  | Xavier
  deriving DecidableEq

/-- A persistent Value (Variable): identity, name, type, visibility and
init policy.  The float init argument is stored nowhere a claim looks, so
it is omitted. -/
structure Variable where
  id : Nat
  name : String
  ty : GlowType
  visibility : VisibilityKind
  train : TrainKind
  deriving DecidableEq

/-- An edge together with the result type of the producer slot it denotes.
In the source a NodeValue reaches its type through the producer pointer
(getType()); the shallow embedding carries that type alongside the edge. -/
structure TypedNodeValue where
  nv : NodeValue
  ty : GlowType
  deriving DecidableEq

/-- A Function (subgraph): a name and the ordered, insertion-order node
list. -/
structure Function where
  name : String
  nodes : List OpNode
  deriving DecidableEq

/-- The Module (graph container): type pool, owned variables, owned
functions, the name-disambiguation counter and the identity allocator. -/
structure Module where
  types : List GlowType
  vars : List Variable
  functions : List Function
  uniqueIdx : Nat
  nextId : Nat
  deriving DecidableEq

/-- Module::uniqueType(const Type &): linear search of the pool for a
structurally equal entry; a hit returns the stored entry, a miss inserts
the candidate at the front of the pool (types_.insert(types_.begin(), T)). -/
def Module.uniqueType (M : Module) (T : GlowType) : GlowType × Module :=
  match M.types.find? (fun tp => T.isEqual tp) with
  | some tp => (tp, M)
  | none => (T, { M with types := T :: M.types })

/-- Module::uniqueTypeWithNewShape: keep the element kind (and, for a
quantized type, the quantization parameters) of the base type, replace the
shape, and intern the result. -/
def Module.uniqueTypeWithNewShape (M : Module) (T : GlowType) (dims : List Nat) :
    GlowType × Module :=
  if T.isQuantizedType then M.uniqueType ⟨T.elemTy, dims, T.scale, T.offset⟩
  else M.uniqueType ⟨T.elemTy, dims, 0, 0⟩

/-- The StringRef::find("__", 0) step of Module::uniqueName: index of the
first occurrence of the two-character delimiter in a character list. -/
def findDelim : List Char → Option Nat
  | c1 :: c2 :: rest =>
    if c1 = '_' ∧ c2 = '_' then some 0
    else (findDelim (c2 :: rest)).map (· + 1)
  | _ => none

/-- The truncation step of Module::uniqueName: remove everything starting
with the first occurrence of the "__" delimiter. -/
def stripName (s : List Char) : List Char :=
  match findDelim s with
  | some i => s.take i
  | none => s

/-- Little-endian decimal digits of n, with explicit fuel (fuel ≥ n makes
the recursion total and keeps it structural). -/
def decAux : Nat → Nat → List Nat
  | 0, _ => []
  | fuel + 1, n => if n = 0 then [] else n % 10 :: decAux fuel (n / 10)

/-- The value denoted by a little-endian digit list (used to specify
decimal rendering). -/
def digitsVal : List Nat → Nat
  | [] => 0
  | d :: ds => d + 10 * digitsVal ds

/-- std::to_string(n): the decimal rendering of n, most-significant digit
first, with "0" for zero. -/
def natChars (n : Nat) : List Char :=
  if n = 0 then ['0'] else ((decAux n n).map Nat.digitChar).reverse

/-- Module::uniqueName on character lists: strip everything from the first
occurrence of the "__" delimiter, then append the delimiter and the decimal
rendering of the counter; the counter is incremented. -/
def uniqueNameChars (s : List Char) (idx : Nat) : List Char × Nat :=
  (stripName s ++ '_' :: '_' :: natChars idx, idx + 1)

/-- Module::uniqueName, lifted to the Module state (uniqueIdx_ is the
counter field). -/
def Module.uniqueName (M : Module) (name : String) : String × Module :=
  let r := uniqueNameChars name.data M.uniqueIdx
  (String.mk r.1, { M with uniqueIdx := r.2 })

/-- Module::createVariable(TypeRef, ...): intern the type, build the
Variable and register it at the end of the owned list.  The disambiguated
name follows the spec for the registration step ("assigns it a
disambiguated name"); addVar itself is declared outside the extracted
source. -/
def Module.createVariable (M : Module) (T : GlowType) (name : String)
    (vis : VisibilityKind) (train : TrainKind) : Variable × Module :=
  let r1 := M.uniqueType T
  let r2 := r1.2.uniqueName name
  let v : Variable := ⟨r2.2.nextId, r2.1, r1.1, vis, train⟩
  (v, { r2.2 with vars := r2.2.vars ++ [v], nextId := r2.2.nextId + 1 })

/-- Function::addNode: append the node to the ordered node list and return
it. -/
def Function.addNode (F : Function) (N : OpNode) : OpNode × Function :=
  (N, { F with nodes := F.nodes ++ [N] })

/-- Modelled from the spec: calculateConvOutputDims (declared outside the
extracted source).  Each output spatial extent is
floor((in + 2*pad - kernel) / stride) + 1. -/
def calculateConvOutputDims (h w kernel stride pad : Nat) : Nat × Nat :=
  ((h + 2 * pad - kernel) / stride + 1, (w + 2 * pad - kernel) / stride + 1)

/-- Function::createConv(name, input, depth, kernel, stride, pad): checks
the NHWC input rank and the spatial extents against the kernel, allocates
the filter and bias variables, interns the output type and appends the
convolution node.  Violated assertions are modelled as none. -/
def Function.createConv (M : Module) (F : Function) (name : String)
    (input : TypedNodeValue) (depth kernel stride pad : Nat) :
    Option (OpNode × Function × Module) :=
  match input.ty.dims with
  | [n, h, w, c] =>
    if kernel ≤ w ∧ kernel ≤ h then
      let outSz := calculateConvOutputDims h w kernel stride pad
      let outDims := [n, outSz.1, outSz.2, depth]
      let rFilter := M.createVariable ⟨ElemKind.FloatTy, [depth, kernel, kernel, c], 0, 0⟩
        ("filter") VisibilityKind.Private TrainKind.Xavier
      let rBias := rFilter.2.createVariable ⟨ElemKind.FloatTy, [depth], 0, 0⟩
        ("bias") VisibilityKind.Private TrainKind.Broadcast
      let rOT := rBias.2.uniqueType ⟨ElemKind.FloatTy, outDims, 0, 0⟩
      let M3 := rOT.2
      let node : OpNode := ⟨M3.nextId, name, NodeKind.Convolution, rOT.1,
        [input.nv, ⟨rFilter.1.id, 0⟩, ⟨rBias.1.id, 0⟩], none,
        [kernel, stride, pad, depth], true⟩
      let r := Function.addNode F node
      some (r.1, r.2, { M3 with nextId := M3.nextId + 1 })
    else none
  | _ => none

/-- The helper of createConcat: true when T1 and T2 agree on element kind,
rank, and every dimension other than dim. -/
def sameSameShapeExceptDim (T1 T2 : GlowType) (dim : Nat) : Bool :=
  T1.elemTy == T2.elemTy && T1.dims.length == T2.dims.length &&
    (List.range T1.dims.length).all fun i =>
      i == dim || T1.dims.getD i 0 == T2.dims.getD i 0

/-- Function::createConcat(name, inputs, dimension), the overload that
computes its own output type: every further input must match the first
except along the concatenation axis; the output shape is the first shape
with the axis size replaced by the sum over all inputs; the output type is
interned through the pool.  An empty input list or an out-of-range axis
dereferences out of bounds in the source and is modelled as none. -/
def Function.createConcat (M : Module) (F : Function) (name : String)
    (inputs : List TypedNodeValue) (dimension : Nat) :
    Option (OpNode × Function × Module) :=
  match inputs with
  | [] => none
  | first :: rest =>
    if rest.all (fun I => sameSameShapeExceptDim I.ty first.ty dimension) then
      if dimension < first.ty.dims.length then
        let total := ((first :: rest).map fun I => I.ty.dims.getD dimension 0).sum
        let shape := first.ty.dims.set dimension total
        let rNT := M.uniqueTypeWithNewShape first.ty shape
        let node : OpNode := ⟨rNT.2.nextId, name, NodeKind.Concat, rNT.1,
          (first :: rest).map (fun I => I.nv), none, [dimension], true⟩
        let r := Function.addNode F node
        some (r.1, r.2, { rNT.2 with nextId := rNT.2.nextId + 1 })
      else none
    else none

/-- Function::createConcat(name, inputs, dimension, outTy): the overload
taking a caller-supplied output type attaches that type as given — there is
no uniqueType call in this overload. -/
def Function.createConcatOutTy (M : Module) (F : Function) (name : String)
    (inputs : List TypedNodeValue) (dimension : Nat) (outTy : GlowType) :
    OpNode × Function × Module :=
  let node : OpNode := ⟨M.nextId, name, NodeKind.Concat, outTy,
    inputs.map (fun I => I.nv), none, [dimension], true⟩
  let r := Function.addNode F node
  (r.1, r.2, { M with nextId := M.nextId + 1 })

/-- Function::createFullyConnected(name, input, W, B, outTy): asserts that
outTy has rank 2 and that its leading dimension matches the input batch
dimension, then attaches outTy as given (no uniqueType call). -/
def Function.createFullyConnectedOutTy (M : Module) (F : Function) (name : String)
    (input : TypedNodeValue) (W B : NodeValue) (outTy : GlowType) :
    Option (OpNode × Function × Module) :=
  if outTy.dims.length = 2 ∧ outTy.dims.getD 0 0 = input.ty.dims.getD 0 0 then
    let node : OpNode := ⟨M.nextId, name, NodeKind.FullyConnected, outTy,
      [input.nv, W, B], none, [], true⟩
    let r := Function.addNode F node
    some (r.1, r.2, { M with nextId := M.nextId + 1 })
  else none

/-- Function::createBatchedAdd(name, batch, sample): the result type is the
batch operand's type. -/
def Function.createBatchedAdd (M : Module) (F : Function) (name : String)
    (batch sample : TypedNodeValue) : OpNode × Function × Module :=
  let node : OpNode := ⟨M.nextId, name, NodeKind.BatchedAdd, batch.ty,
    [batch.nv, sample.nv], none, [], true⟩
  let r := Function.addNode F node
  (r.1, r.2, { M with nextId := M.nextId + 1 })

/-- Function::createBatchedAdd(name, outTy, batch, sample): the overload
taking a caller-supplied output type attaches it as given (no uniqueType
call). -/
def Function.createBatchedAddOutTy (M : Module) (F : Function) (name : String)
    (outTy : GlowType) (batch sample : TypedNodeValue) :
    OpNode × Function × Module :=
  let node : OpNode := ⟨M.nextId, name, NodeKind.BatchedAdd, outTy,
    [batch.nv, sample.nv], none, [], true⟩
  let r := Function.addNode F node
  (r.1, r.2, { M with nextId := M.nextId + 1 })

/-- The two-argument overload generated by ARITHMETIC_FUN_DEF delegates to
this one with T = LHS.getType(); operand shapes must coincide and the node
carries T unchanged as its result type. -/
def Function.createArithmeticWithTy (M : Module) (F : Function) (op : ArithKind)
    (name : String) (T : GlowType) (LHS RHS : TypedNodeValue) :
    Option (OpNode × Function × Module) :=
  if LHS.ty.dims = RHS.ty.dims then
    let node : OpNode := ⟨M.nextId, name, NodeKind.Arith op, T,
      [LHS.nv, RHS.nv], none, [], true⟩
    let r := Function.addNode F node
    some (r.1, r.2, { M with nextId := M.nextId + 1 })
  else none

/-- create{Add,Sub,Mul,Div,Max,Min,CmpLTE}(name, LHS, RHS): one definition
for the whole ARITHMETIC_FUN_DEF family, indexed by the operator. -/
def Function.createArithmetic (M : Module) (F : Function) (op : ArithKind)
    (name : String) (LHS RHS : TypedNodeValue) :
    Option (OpNode × Function × Module) :=
  Function.createArithmeticWithTy M F op name LHS.ty LHS RHS

/-- The erase of the first variable with the given identity (the combined
std::find plus list erase); absent identities leave the list unchanged. -/
def eraseFirstVar : List Variable → Nat → List Variable
  | [], _ => []
  | v :: rest, i => if v.id = i then rest else v :: eraseFirstVar rest i

/-- Module::eraseVariable(Variable*): std::find for the variable, then the
iterator overload — which silently returns when the iterator is vars_.end(),
i.e. when the variable is not owned by this Module. -/
def Module.eraseVariable (M : Module) (V : Variable) : Module :=
  { M with vars := eraseFirstVar M.vars V.id }

/-- The erase of the first operator node with the given identity. -/
def eraseFirstNode : List OpNode → Nat → List OpNode
  | [], _ => []
  | n :: rest, i => if n.id = i then rest else n :: eraseFirstNode rest i

/-- The argument of Function::eraseNode(Node*): the dyn_cast<Variable>
dispatch is modelled by a sum of the two node species. -/
inductive NodeRef where
  | var (V : Variable)
  | op (N : OpNode)

/-- Function::eraseNode(Node*): a Variable is delegated to the Module's
eraseVariable (the Function's node list is untouched); an operator node
must be found in this Function's list (the failed std::find asserts, which
is modelled as none) and is removed. -/
def Function.eraseNode (M : Module) (F : Function) (N : NodeRef) :
    Option (Module × Function) :=
  match N with
  | NodeRef.var V => some (M.eraseVariable V, F)
  | NodeRef.op nd =>
    if F.nodes.any (fun x => x.id = nd.id) then
      some (M, { F with nodes := eraseFirstNode F.nodes nd.id })
    else none

/-- The first loop of Function::clone: each node is duplicated via
N->clone() as a fresh instance (fresh identities base, base+1, ...) with
all attributes copied; the inputs still point into the original graph. -/
def cloneNodes (base : Nat) : List OpNode → List OpNode
  | [] => []
  | n :: rest => { n with id := base } :: cloneNodes (base + 1) rest

/-- The currToNew map of Function::clone, as an association list from old
node identity to duplicate identity. -/
def cloneMap (base : Nat) : List OpNode → List (Nat × Nat)
  | [] => []
  | n :: rest => (n.id, base) :: cloneMap (base + 1) rest

/-- Association-list lookup (DenseMap::find). -/
def lookupMap (m : List (Nat × Nat)) (k : Nat) : Option Nat :=
  (m.find? (fun p => p.1 == k)).map Prod.snd

/-- The input fix-up of Function::clone: a producer found in currToNew is
redirected to its duplicate keeping the result-slot index; otherwise the
producer must be a Variable (the edge is left untouched) — anything else
asserts, modelled as none. -/
def rewriteInput (m : List (Nat × Nat)) (varIds : List Nat) (inp : NodeValue) :
    Option NodeValue :=
  match lookupMap m inp.producer with
  | some newId => some ⟨newId, inp.resNo⟩
  | none => if varIds.contains inp.producer then some inp else none

/-- The input fix-up over one node's input list. -/
def rewriteInputs (m : List (Nat × Nat)) (varIds : List Nat) :
    List NodeValue → Option (List NodeValue)
  | [] => some []
  | inp :: rest =>
    match rewriteInput m varIds inp, rewriteInputs m varIds rest with
    | some i, some rest2 => some (i :: rest2)
    | _, _ => none

/-- The second loop of Function::clone: fix up every input of every
duplicate. -/
def rewriteNodesGo (m : List (Nat × Nat)) (varIds : List Nat) :
    List OpNode → Option (List OpNode)
  | [] => some []
  | N :: rest =>
    match rewriteInputs m varIds N.inputs, rewriteNodesGo m varIds rest with
    | some ins, some rest2 => some ({ N with inputs := ins } :: rest2)
    | _, _ => none

/-- Module::hasFunction by name. -/
def Module.hasFunction (M : Module) (name : String) : Bool :=
  M.functions.any (fun G => G.name == name)

/-- Function::clone(newName, map): createFunction(newName) (which asserts
the name is unused, modelled as none), duplication of every operator node,
input fix-up against the currToNew map and the Module's variables, and
registration of the new Function in the same Module.  The returned map is
currToNew. -/
def Function.clone (M : Module) (F : Function) (newName : String) :
    Option (Function × List (Nat × Nat) × Module) :=
  if M.hasFunction newName then none
  else
    let base := M.nextId
    let copies := cloneNodes base F.nodes
    let m := cloneMap base F.nodes
    match rewriteNodesGo m (M.vars.map Variable.id) copies with
    | none => none
    | some newNodes =>
      let newF : Function := ⟨newName, newNodes⟩
      some (newF, m, { M with functions := M.functions ++ [newF],
                              nextId := base + F.nodes.length })

/-- The fatal diagnostics of verification. -/
inductive VerifyErr where
  | nameConflict (nm : String) (prevId curId : Nat)
  | danglingEdge (nodeId inputIdx : Nat)
  | localCheck (nodeId : Nat)
  deriving DecidableEq

/-- The NameToNode insertion loops of Function::verify: each (name, id)
definition is inserted; a pre-existing key is a fatal conflict reported
with both the previous and the current definition. -/
def insertNames (m : List (String × Nat)) :
    List (String × Nat) → Except VerifyErr (List (String × Nat))
  | [] => Except.ok m
  | e :: rest =>
    match m.find? (fun p => p.1 == e.1) with
    | some p => Except.error (VerifyErr.nameConflict e.1 p.2 e.2)
    | none => insertNames (e :: m) rest

/-- The edge-closure check of Function::verify over one node's positional
inputs: each producer must be found among the Function's nodes or the
Module's variables. -/
def checkInputsAux (nodeIds varIds : List Nat) (nid idx : Nat) :
    List NodeValue → Except VerifyErr Unit
  | [] => Except.ok ()
  | inp :: rest =>
    if nodeIds.contains inp.producer || varIds.contains inp.producer then
      checkInputsAux nodeIds varIds nid (idx + 1) rest
    else Except.error (VerifyErr.danglingEdge nid idx)

/-- The edge-closure check over every node. -/
def checkAllInputs (nodeIds varIds : List Nat) :
    List OpNode → Except VerifyErr Unit
  | [] => Except.ok ()
  | N :: rest =>
    match checkInputsAux nodeIds varIds N.id 0 N.inputs with
    | Except.error e => Except.error e
    | Except.ok _ => checkAllInputs nodeIds varIds rest

/-- The per-node N->verify() loop of Function::verify (the node-local
checks themselves are the abstracted localOk verdicts). -/
def checkLocal : List OpNode → Except VerifyErr Unit
  | [] => Except.ok ()
  | N :: rest =>
    if N.localOk then checkLocal rest
    else Except.error (VerifyErr.localCheck N.id)

/-- Function::verify: (1) insert all of the Module's Variables into the
name map, (2) insert all of this Function's nodes into the same map, (3)
check that every positional input edge of every node resolves to a node of
this Function or a Variable of the Module, (4) run every node's local
check.  The loop of step (3) runs over getNumInputs() positional inputs
only; the predicate edge is not examined, mirroring the source. -/
def Function.verify (M : Module) (F : Function) : Except VerifyErr Unit :=
  match insertNames [] (M.vars.map fun v => (v.name, v.id)) with
  | Except.error e => Except.error e
  | Except.ok m =>
    match insertNames m (F.nodes.map fun n => (n.name, n.id)) with
    | Except.error e => Except.error e
    | Except.ok _ =>
      match checkAllInputs (F.nodes.map OpNode.id) (M.vars.map Variable.id) F.nodes with
      | Except.error e => Except.error e
      | Except.ok _ => checkLocal F.nodes

/-- The loop of Module::verify over the owned functions. -/
def Module.verifyGo (M : Module) : List Function → Except VerifyErr Unit
  | [] => Except.ok ()
  | F :: rest =>
    match Function.verify M F with
    | Except.error e => Except.error e
    | Except.ok _ => M.verifyGo rest

/-- Module::verify: run each owned Function's verify and nothing else. -/
def Module.verify (M : Module) : Except VerifyErr Unit :=
  M.verifyGo M.functions

end Glow

namespace Glow

theorem isEqual_self (T : GlowType) : T.isEqual T = true := by
  simp [GlowType.isEqual]

theorem isEqual_eq {a b : GlowType} (h : a.isEqual b = true) : a = b := by
  simpa [GlowType.isEqual] using h

theorem uniqueType_fst (M : Module) (T : GlowType) : (M.uniqueType T).1 = T := by
  unfold Module.uniqueType
  cases h : M.types.find? (fun tp => T.isEqual tp) with
  | none => rfl
  | some tp =>
    have h2 := isEqual_eq (List.find?_some h)
    simp [← h2]

theorem uniqueType_of_mem {M : Module} {T : GlowType} (h : T ∈ M.types) :
    M.uniqueType T = (T, M) := by
  unfold Module.uniqueType
  cases hf : M.types.find? (fun tp => T.isEqual tp) with
  | none =>
    exact absurd (isEqual_self T) (by simpa using List.find?_eq_none.mp hf T h)
  | some tp =>
    have h2 := isEqual_eq (List.find?_some hf)
    simp [← h2]

theorem uniqueType_of_not_mem {M : Module} {T : GlowType} (h : T ∉ M.types) :
    M.uniqueType T = (T, { M with types := T :: M.types }) := by
  unfold Module.uniqueType
  cases hf : M.types.find? (fun tp => T.isEqual tp) with
  | none => rfl
  | some tp =>
    have h2 := isEqual_eq (List.find?_some hf)
    exact absurd (h2 ▸ List.mem_of_find?_eq_some hf) h

theorem uniqueType_mem (M : Module) (T : GlowType) :
    T ∈ (M.uniqueType T).2.types := by
  by_cases h : T ∈ M.types
  · rw [uniqueType_of_mem h]; exact h
  · rw [uniqueType_of_not_mem h]; exact List.mem_cons_self T M.types

theorem uniqueType_types_nodup {M : Module} (T : GlowType) (h : M.types.Nodup) :
    (M.uniqueType T).2.types.Nodup := by
  by_cases hm : T ∈ M.types
  · rw [uniqueType_of_mem hm]; exact h
  · rw [uniqueType_of_not_mem hm]; exact List.nodup_cons.mpr ⟨hm, h⟩

/-- Claim C3: interning a Type structurally equal to a stored one returns
that stored entry and leaves the pool unchanged; interning a new Type
inserts it; interning never fails (the result always equals the request
structurally and lives in the resulting pool); interning the same Type
twice in a row returns the same reference both times with no second
insertion; structurally different Types intern to distinct references; and
the pool never acquires two structurally equal entries. -/
theorem uniqueType_dedup_C3 :
    (∀ (M : Module) (T : GlowType), T ∈ M.types → M.uniqueType T = (T, M)) ∧
    (∀ (M : Module) (T : GlowType), T ∉ M.types →
      M.uniqueType T = (T, { M with types := T :: M.types })) ∧
    (∀ (M : Module) (T : GlowType),
      (M.uniqueType T).1 ∈ (M.uniqueType T).2.types ∧
      (M.uniqueType T).1.isEqual T = true) ∧
    (∀ (M : Module) (T : GlowType),
      (M.uniqueType T).2.uniqueType T = ((M.uniqueType T).1, (M.uniqueType T).2)) ∧
    (∀ (M : Module) (T1 T2 : GlowType), T1 ≠ T2 →
      (M.uniqueType T1).1 ≠ (M.uniqueType T2).1) ∧
    (∀ (M : Module) (T : GlowType), M.types.Nodup → (M.uniqueType T).2.types.Nodup) := by
  refine ⟨fun M T h => uniqueType_of_mem h,
    fun M T h => uniqueType_of_not_mem h,
    fun M T => ⟨?_, ?_⟩, fun M T => ?_, fun M T1 T2 h => ?_,
    fun M T h => uniqueType_types_nodup T h⟩
  · rw [uniqueType_fst]; exact uniqueType_mem M T
  · rw [uniqueType_fst]; exact isEqual_self T
  · rw [uniqueType_of_mem (uniqueType_mem M T), uniqueType_fst]
  · rw [uniqueType_fst, uniqueType_fst]; exact h

theorem uniqueType_dedup_C3_witness :
    (⟨ElemKind.FloatTy, [4, 10], 0, 0⟩ : GlowType) ∈
      ([⟨ElemKind.FloatTy, [4, 10], 0, 0⟩] : List GlowType) ∧
    Module.uniqueType ⟨[⟨ElemKind.FloatTy, [4, 10], 0, 0⟩], [], [], 0, 0⟩
      ⟨ElemKind.FloatTy, [4, 10], 0, 0⟩ =
      (⟨ElemKind.FloatTy, [4, 10], 0, 0⟩,
       ⟨[⟨ElemKind.FloatTy, [4, 10], 0, 0⟩], [], [], 0, 0⟩) :=
  ⟨by decide, uniqueType_dedup_C3.1 ⟨[⟨ElemKind.FloatTy, [4, 10], 0, 0⟩], [], [], 0, 0⟩
    ⟨ElemKind.FloatTy, [4, 10], 0, 0⟩ (by decide)⟩

theorem digitsVal_decAux : ∀ (fuel n : Nat), n ≤ fuel → digitsVal (decAux fuel n) = n := by
  intro fuel
  induction fuel with
  | zero => intro n hn; interval_cases n; simp [decAux, digitsVal]
  | succ f ih =>
    intro n hn
    by_cases h0 : n = 0
    · simp [decAux, h0, digitsVal]
    · have hdiv : n / 10 < n := Nat.div_lt_self (Nat.pos_of_ne_zero h0) (by norm_num)
      have : n / 10 ≤ f := by omega
      simp [decAux, h0, digitsVal, ih (n / 10) this]
      exact Nat.mod_add_div n 10

theorem decAux_lt_ten : ∀ (fuel n d : Nat), d ∈ decAux fuel n → d < 10 := by
  intro fuel
  induction fuel with
  | zero => intro n d hd; simp [decAux] at hd
  | succ f ih =>
    intro n d hd
    by_cases h0 : n = 0
    · simp [decAux, h0] at hd
    · simp [decAux, h0] at hd
      rcases hd with hd | hd
      · omega
      · exact ih (n / 10) d hd

theorem digitChar_fin_inj : ∀ a b : Fin 10,
    Nat.digitChar a.val = Nat.digitChar b.val → a = b := by decide

theorem digitChar_fin_isDigit : ∀ a : Fin 10, (Nat.digitChar a.val).isDigit = true := by
  decide

theorem map_digitChar_inj : ∀ (l1 l2 : List Nat), (∀ d ∈ l1, d < 10) →
    (∀ d ∈ l2, d < 10) → l1.map Nat.digitChar = l2.map Nat.digitChar → l1 = l2 := by
  intro l1
  induction l1 with
  | nil => intro l2 _ _ h; cases l2 <;> simp_all
  | cons a l1 ih =>
    intro l2 h1 h2 h
    cases l2 with
    | nil => simp at h
    | cons b l2 =>
      simp only [List.map_cons, List.cons.injEq] at h
      have ha : a < 10 := h1 a (by simp)
      have hb : b < 10 := h2 b (by simp)
      have hab : a = b := by
        have := digitChar_fin_inj ⟨a, ha⟩ ⟨b, hb⟩ h.1
        simpa [Fin.mk.injEq] using this
      have := ih l2 (fun d hd => h1 d (by simp [hd])) (fun d hd => h2 d (by simp [hd])) h.2
      simp [hab, this]

theorem natChars_inj {n m : Nat} (h : natChars n = natChars m) : n = m := by
  by_cases hn : n = 0 <;> by_cases hm : m = 0
  · omega
  · exfalso
    have h2 : (decAux m m).map Nat.digitChar = [Nat.digitChar 0] := by
      have := congrArg List.reverse h
      simpa [natChars, hn, hm, Nat.digitChar] using this.symm
    have h3 : decAux m m = [0] :=
      map_digitChar_inj _ _ (fun d hd => decAux_lt_ten m m d hd)
        (by intro d hd; simp at hd; omega) h2
    have := digitsVal_decAux m m le_rfl
    rw [h3] at this
    simp [digitsVal] at this
    exact hm this.symm
  · exfalso
    have h2 : (decAux n n).map Nat.digitChar = [Nat.digitChar 0] := by
      have := congrArg List.reverse h
      simpa [natChars, hn, hm, Nat.digitChar] using this
    have h3 : decAux n n = [0] :=
      map_digitChar_inj _ _ (fun d hd => decAux_lt_ten n n d hd)
        (by intro d hd; simp at hd; omega) h2
    have := digitsVal_decAux n n le_rfl
    rw [h3] at this
    simp [digitsVal] at this
    exact hn this.symm
  · have h2 : (decAux n n).map Nat.digitChar = (decAux m m).map Nat.digitChar := by
      have := congrArg List.reverse h
      simpa [natChars, hn, hm] using this
    have h3 := map_digitChar_inj _ _ (fun d hd => decAux_lt_ten n n d hd)
      (fun d hd => decAux_lt_ten m m d hd) h2
    have hn2 := digitsVal_decAux n n le_rfl
    have hm2 := digitsVal_decAux m m le_rfl
    rw [h3] at hn2
    omega

theorem natChars_isDigit (n : Nat) : ∀ c ∈ natChars n, c.isDigit = true := by
  intro c hc
  by_cases hn : n = 0
  · simp [natChars, hn] at hc
    simp [hc]
  · simp [natChars, hn] at hc
    obtain ⟨d, hd, hdc⟩ := hc
    have := digitChar_fin_isDigit ⟨d, decAux_lt_ten n n d hd⟩
    simpa [hdc] using this

theorem takeWhile_digits_append : ∀ (d rest : List Char),
    (∀ c ∈ d, c.isDigit = true) →
    (d ++ '_' :: rest).takeWhile Char.isDigit = d := by
  intro d
  induction d with
  | nil =>
    intro rest _
    simp [List.takeWhile_cons]
  | cons c d ih =>
    intro rest h
    have hc : c.isDigit = true := h c (by simp)
    simp [List.takeWhile_cons, hc]
    exact ih rest (fun x hx => h x (by simp [hx]))

theorem nameDigits_inj (p1 p2 d1 d2 : List Char)
    (h1 : ∀ c ∈ d1, c.isDigit = true) (h2 : ∀ c ∈ d2, c.isDigit = true)
    (heq : p1 ++ '_' :: '_' :: d1 = p2 ++ '_' :: '_' :: d2) : d1 = d2 := by
  have hrev : d1.reverse ++ '_' :: '_' :: p1.reverse =
      d2.reverse ++ '_' :: '_' :: p2.reverse := by
    have := congrArg List.reverse heq
    simpa [List.reverse_append] using this
  have t1 := takeWhile_digits_append d1.reverse ('_' :: p1.reverse)
    (by intro c hc; exact h1 c (List.mem_reverse.mp hc))
  have t2 := takeWhile_digits_append d2.reverse ('_' :: p2.reverse)
    (by intro c hc; exact h2 c (List.mem_reverse.mp hc))
  have : d1.reverse = d2.reverse := by rw [← t1, hrev, t2]
  simpa using congrArg List.reverse this

theorem findDelim_take : ∀ (s : List Char) (i : Nat), findDelim s = some i →
    findDelim (s.take i) = none
  | [], i, h => by simp [findDelim] at h
  | [c], i, h => by simp [findDelim] at h
  | c1 :: c2 :: rest, i, h => by
    by_cases hd : c1 = '_' ∧ c2 = '_'
    · simp [findDelim, hd] at h
      simp [← h, findDelim]
    · simp only [findDelim, if_neg hd, Option.map_eq_some'] at h
      obtain ⟨j, hj, hji⟩ := h
      subst hji
      cases j with
      | zero => simp [findDelim]
      | succ k =>
        have ihk := findDelim_take (c2 :: rest) (k + 1) hj
        simp only [List.take_succ_cons] at ihk ⊢
        simp only [findDelim, if_neg hd, ihk, Option.map_none']

theorem findDelim_append : ∀ (p t : List Char), findDelim p = none →
    p.getLast? ≠ some '_' → findDelim (p ++ '_' :: '_' :: t) = some p.length
  | [], t, _, _ => by simp [findDelim]
  | [c], t, _, h2 => by
    have hc : ¬(c = '_' ∧ True) := by simpa using h2
    simp only [List.cons_append, List.nil_append, findDelim]
    rw [if_neg (by simp; intro h; exact absurd (by simp [h]) hc)]
    simp [findDelim]
  | c1 :: c2 :: p, t, h1, h2 => by
    have hd : ¬(c1 = '_' ∧ c2 = '_') := by
      intro hcc
      simp [findDelim, hcc] at h1
    have hrest : findDelim (c2 :: p) = none := by
      simp only [findDelim, if_neg hd, Option.map_eq_none'] at h1
      exact h1
    have hlast : (c2 :: p).getLast? ≠ some '_' := by
      simpa [List.getLast?_cons_cons] using h2
    have ih := findDelim_append (c2 :: p) t hrest hlast
    simp only [List.cons_append] at ih ⊢
    simp only [findDelim, if_neg hd, ih, Option.map_some']
    simp [List.length_cons]

theorem findDelim_stripName (s : List Char) : findDelim (stripName s) = none := by
  unfold stripName
  cases h : findDelim s with
  | none => exact h
  | some i => exact findDelim_take s i h

theorem stripName_of_delimFree {s : List Char} (h : findDelim s = none) :
    stripName s = s := by
  simp [stripName, h]

theorem stripName_of_delim {l : List Char} {i : Nat} (h : findDelim l = some i) :
    stripName l = l.take i := by
  simp [stripName, h]

/-- Claim C4 counterexample: the requested name "x_" has bare name part
"x_" (it contains no "__" delimiter), the produced unique name is "x___0",
and re-disambiguating that produced name strips to the bare name "x" — not
to "x_".  Prefix stability fails when the bare name ends in an underscore. -/
theorem uniqueName_stability_cex_C4 :
    stripName ['x', '_'] = ['x', '_'] ∧
    (uniqueNameChars ['x', '_'] 0).1 = ['x', '_', '_', '_', '0'] ∧
    stripName (uniqueNameChars ['x', '_'] 0).1 = ['x'] ∧
    stripName (uniqueNameChars ['x', '_'] 0).1 ≠ stripName ['x', '_'] := by
  refine ⟨by decide, by decide, by decide, by decide⟩

/-- Claim C4 (amended): uniqueName returns the part of the request before
the first "__" delimiter followed by "__" and the decimal rendering of the
counter, and bumps the counter; any two names produced with different
counter values differ, so all names one Module ever produces are pairwise
distinct; and re-disambiguating a produced name recovers the same bare
name provided the bare name does not end in an underscore (when it does,
that trailing underscore fuses with the delimiter and is stripped as
well). -/
theorem uniqueName_spec_C4 :
    (∀ (s : List Char) (n : Nat),
      uniqueNameChars s n = (stripName s ++ '_' :: '_' :: natChars n, n + 1)) ∧
    (∀ (s1 s2 : List Char) (n1 n2 : Nat), n1 ≠ n2 →
      (uniqueNameChars s1 n1).1 ≠ (uniqueNameChars s2 n2).1) ∧
    (∀ (M : Module) (s t : String),
      (((M.uniqueName s).2).uniqueName t).1 ≠ (M.uniqueName s).1) ∧
    (∀ (s : List Char) (n : Nat), (stripName s).getLast? ≠ some '_' →
      stripName (uniqueNameChars s n).1 = stripName s) := by
  refine ⟨fun s n => rfl, fun s1 s2 n1 n2 hn heq => ?_, fun M s t heq => ?_, fun s n h => ?_⟩
  · exact hn (natChars_inj (nameDigits_inj _ _ _ _ (natChars_isDigit n1)
      (natChars_isDigit n2) heq))
  · have heql : (uniqueNameChars t.data (M.uniqueIdx + 1)).1 =
        (uniqueNameChars s.data M.uniqueIdx).1 := by
      have := congrArg String.data heq
      simpa [Module.uniqueName, uniqueNameChars] using this
    exact absurd (natChars_inj (nameDigits_inj _ _ _ _
      (natChars_isDigit (M.uniqueIdx + 1)) (natChars_isDigit M.uniqueIdx) heql))
      (by omega)
  · show stripName (stripName s ++ '_' :: '_' :: natChars n) = stripName s
    rw [stripName_of_delim
      (findDelim_append (stripName s) (natChars n) (findDelim_stripName s) h)]
    exact List.take_left (stripName s) ('_' :: '_' :: natChars n)

theorem uniqueName_spec_C4_witness :
    (uniqueNameChars ['f', 'c'] 0).1 ≠ (uniqueNameChars ['f', 'c'] 1).1 ∧
    stripName (uniqueNameChars ['f', 'c'] 0).1 = ['f', 'c'] :=
  ⟨uniqueName_spec_C4.2.1 ['f', 'c'] ['f', 'c'] 0 1 (by decide),
   by
    have := uniqueName_spec_C4.2.2.2 ['f', 'c'] 0 (by decide)
    rwa [show stripName ['f', 'c'] = ['f', 'c'] from by decide] at this⟩

theorem uniqueTypeWithNewShape_fst (M : Module) (T : GlowType) (dims : List Nat) :
    (M.uniqueTypeWithNewShape T dims).1 =
      ⟨T.elemTy, dims, if T.isQuantizedType then T.scale else 0,
        if T.isQuantizedType then T.offset else 0⟩ := by
  unfold Module.uniqueTypeWithNewShape
  split <;> simp_all [uniqueType_fst]

theorem uniqueTypeWithNewShape_mem (M : Module) (T : GlowType) (dims : List Nat) :
    (M.uniqueTypeWithNewShape T dims).1 ∈ (M.uniqueTypeWithNewShape T dims).2.types := by
  unfold Module.uniqueTypeWithNewShape
  split <;> (rw [uniqueType_fst]; exact uniqueType_mem _ _)

/-- Claim C5: for an NHWC input whose spatial extents are at least the
kernel size, createConv succeeds and the result shape is
(N, floor((H + 2*pad - kernel)/stride) + 1,
 floor((W + 2*pad - kernel)/stride) + 1, depth). -/
theorem createConv_shape_C5 (M : Module) (F : Function) (name : String)
    (input : TypedNodeValue) (depth kernel stride pad n h w c : Nat)
    (hdims : input.ty.dims = [n, h, w, c]) (hh : kernel ≤ h) (hw : kernel ≤ w) :
    ∃ node F2 M2,
      Function.createConv M F name input depth kernel stride pad = some (node, F2, M2) ∧
      node.ty.dims = [n, (h + 2 * pad - kernel) / stride + 1,
        (w + 2 * pad - kernel) / stride + 1, depth] := by
  unfold Function.createConv
  rw [hdims]
  simp only []
  rw [if_pos (And.intro hw hh)]
  exact ⟨_, _, _, rfl, by simp [Function.addNode, uniqueType_fst, calculateConvOutputDims]⟩

theorem createConv_shape_C5_witness :
    ∃ node F2 M2,
      Function.createConv ⟨[], [], [], 0, 0⟩ ⟨"main", []⟩ ("conv")
        ⟨⟨0, 0⟩, ⟨ElemKind.FloatTy, [1, 32, 32, 3], 0, 0⟩⟩ 16 5 1 2 = some (node, F2, M2) ∧
      node.ty.dims = [1, 32, 32, 16] := by
  have h := createConv_shape_C5 ⟨[], [], [], 0, 0⟩ ⟨"main", []⟩ ("conv")
    ⟨⟨0, 0⟩, ⟨ElemKind.FloatTy, [1, 32, 32, 3], 0, 0⟩⟩ 16 5 1 2 1 32 32 3 rfl
    (by norm_num) (by norm_num)
  exact h

/-- Claim C6: createConcat requires every further input to agree with the
first on element kind, rank and every dimension except the concatenation
axis (the call is rejected otherwise), and the result shape is the first
input's shape with the axis size replaced by the sum of all the inputs'
axis sizes; the element kind is the first input's. -/
theorem createConcat_shape_C6 (M : Module) (F : Function) (name : String)
    (first : TypedNodeValue) (rest : List TypedNodeValue) (dimension : Nat)
    (hdim : dimension < first.ty.dims.length) :
    (rest.all (fun I => sameSameShapeExceptDim I.ty first.ty dimension) = true →
      ∃ node F2 M2,
        Function.createConcat M F name (first :: rest) dimension = some (node, F2, M2) ∧
        node.ty.dims = first.ty.dims.set dimension
          (((first :: rest).map fun I => I.ty.dims.getD dimension 0).sum) ∧
        node.ty.elemTy = first.ty.elemTy) ∧
    (rest.all (fun I => sameSameShapeExceptDim I.ty first.ty dimension) = false →
      Function.createConcat M F name (first :: rest) dimension = none) := by
  constructor
  · intro hall
    unfold Function.createConcat
    simp only []
    rw [if_pos hall, if_pos hdim]
    exact ⟨_, _, _, rfl, by simp [Function.addNode, uniqueTypeWithNewShape_fst],
      by simp [Function.addNode, uniqueTypeWithNewShape_fst]⟩
  · intro hall
    unfold Function.createConcat
    simp only []
    rw [hall]
    simp

theorem createConcat_shape_C6_witness :
    (∃ node F2 M2,
      Function.createConcat ⟨[], [], [], 0, 0⟩ ⟨"main", []⟩ ("cc")
        [⟨⟨0, 0⟩, ⟨ElemKind.FloatTy, [4, 10], 0, 0⟩⟩,
         ⟨⟨1, 0⟩, ⟨ElemKind.FloatTy, [4, 6], 0, 0⟩⟩] 1 = some (node, F2, M2) ∧
      node.ty.dims = [4, 16]) ∧
    Function.createConcat ⟨[], [], [], 0, 0⟩ ⟨"main", []⟩ ("cc")
      [⟨⟨0, 0⟩, ⟨ElemKind.FloatTy, [4, 10], 0, 0⟩⟩,
       ⟨⟨1, 0⟩, ⟨ElemKind.FloatTy, [4, 6], 0, 0⟩⟩] 0 = none := by
  constructor
  · obtain ⟨node, F2, M2, heq, hdims, _⟩ :=
      (createConcat_shape_C6 ⟨[], [], [], 0, 0⟩ ⟨"main", []⟩ ("cc")
        ⟨⟨0, 0⟩, ⟨ElemKind.FloatTy, [4, 10], 0, 0⟩⟩
        [⟨⟨1, 0⟩, ⟨ElemKind.FloatTy, [4, 6], 0, 0⟩⟩] 1 (by norm_num)).1 (by decide)
    exact ⟨node, F2, M2, heq, hdims⟩
  · exact (createConcat_shape_C6 ⟨[], [], [], 0, 0⟩ ⟨"main", []⟩ ("cc")
      ⟨⟨0, 0⟩, ⟨ElemKind.FloatTy, [4, 10], 0, 0⟩⟩
      [⟨⟨1, 0⟩, ⟨ElemKind.FloatTy, [4, 6], 0, 0⟩⟩] 0 (by norm_num)).2 (by decide)

/-- Claim C10: every elementwise binary builder of the ARITHMETIC_FUN_DEF
family (Add, Sub, Mul, Div, Max, Min and also CmpLTE) requires equal
operand shapes and gives the node exactly the left operand's type —
element kind, shape and quantization parameters included. -/
theorem createArithmetic_type_C10 (M : Module) (F : Function) (op : ArithKind)
    (name : String) (LHS RHS : TypedNodeValue) (h : LHS.ty.dims = RHS.ty.dims) :
    ∃ node F2 M2,
      Function.createArithmetic M F op name LHS RHS = some (node, F2, M2) ∧
      node.ty = LHS.ty ∧ node.kind = NodeKind.Arith op := by
  unfold Function.createArithmetic Function.createArithmeticWithTy
  rw [if_pos h]
  exact ⟨_, _, _, rfl, rfl, rfl⟩

theorem createArithmetic_type_C10_witness :
    ∃ node F2 M2,
      Function.createArithmetic ⟨[], [], [], 0, 0⟩ ⟨"main", []⟩ ArithKind.CmpLTE ("cmp")
        ⟨⟨0, 0⟩, ⟨ElemKind.Int8QTy, [2, 2], 3, 7⟩⟩
        ⟨⟨1, 0⟩, ⟨ElemKind.Int8QTy, [2, 2], 5, 9⟩⟩ = some (node, F2, M2) ∧
      node.ty = ⟨ElemKind.Int8QTy, [2, 2], 3, 7⟩ := by
  obtain ⟨node, F2, M2, heq, hty, _⟩ :=
    createArithmetic_type_C10 ⟨[], [], [], 0, 0⟩ ⟨"main", []⟩ ArithKind.CmpLTE ("cmp")
      ⟨⟨0, 0⟩, ⟨ElemKind.Int8QTy, [2, 2], 3, 7⟩⟩
      ⟨⟨1, 0⟩, ⟨ElemKind.Int8QTy, [2, 2], 5, 9⟩⟩ rfl
  exact ⟨node, F2, M2, heq, hty⟩

/-- Claim C7 counterexample: the createConcat overload that takes a
caller-supplied output type appends a node carrying exactly that type
while the Module's type pool stays empty — the node's result type was not
obtained from the Type Pool. -/
theorem typePool_outTy_cex_C7 :
    Function.createConcatOutTy ⟨[], [], [], 0, 0⟩ ⟨"f", []⟩ ("c")
        [⟨⟨0, 0⟩, ⟨ElemKind.FloatTy, [4, 10], 0, 0⟩⟩] 0 ⟨ElemKind.FloatTy, [4, 10], 0, 0⟩ =
      (⟨0, "c", NodeKind.Concat, ⟨ElemKind.FloatTy, [4, 10], 0, 0⟩, [⟨0, 0⟩], none, [0], true⟩,
       ⟨"f", [⟨0, "c", NodeKind.Concat, ⟨ElemKind.FloatTy, [4, 10], 0, 0⟩,
          [⟨0, 0⟩], none, [0], true⟩]⟩,
       ⟨[], [], [], 0, 1⟩) ∧
    (⟨ElemKind.FloatTy, [4, 10], 0, 0⟩ : GlowType) ∉ ([] : List GlowType) := by
  exact ⟨by decide, by decide⟩

/-- Claim C7 (amended): the builders that compute their own output type
obtain it from the Type Pool — the appended node's result type is a member
of the resulting Module's pool — but the overloads accepting a
caller-supplied output type (createConcat with outTy, createBatchedAdd
with outTy, createFullyConnected with outTy) attach the given type
unchanged and never touch the pool; createBatchedAdd without outTy reuses
the batch operand's type, also without touching the pool. -/
theorem typePool_types_C7 :
    (∀ (M : Module) (F : Function) (name : String) (input : TypedNodeValue)
        (depth kernel stride pad : Nat) (r : OpNode × Function × Module),
      Function.createConv M F name input depth kernel stride pad = some r →
      r.1.ty ∈ r.2.2.types) ∧
    (∀ (M : Module) (F : Function) (name : String) (inputs : List TypedNodeValue)
        (dimension : Nat) (r : OpNode × Function × Module),
      Function.createConcat M F name inputs dimension = some r →
      r.1.ty ∈ r.2.2.types) ∧
    (∀ (M : Module) (F : Function) (name : String) (inputs : List TypedNodeValue)
        (dimension : Nat) (outTy : GlowType),
      (Function.createConcatOutTy M F name inputs dimension outTy).1.ty = outTy ∧
      (Function.createConcatOutTy M F name inputs dimension outTy).2.2.types = M.types) ∧
    (∀ (M : Module) (F : Function) (name : String) (outTy : GlowType)
        (batch sample : TypedNodeValue),
      (Function.createBatchedAddOutTy M F name outTy batch sample).1.ty = outTy ∧
      (Function.createBatchedAddOutTy M F name outTy batch sample).2.2.types = M.types) ∧
    (∀ (M : Module) (F : Function) (name : String) (input : TypedNodeValue)
        (W B : NodeValue) (outTy : GlowType) (r : OpNode × Function × Module),
      Function.createFullyConnectedOutTy M F name input W B outTy = some r →
      r.1.ty = outTy ∧ r.2.2.types = M.types) ∧
    (∀ (M : Module) (F : Function) (name : String) (batch sample : TypedNodeValue),
      (Function.createBatchedAdd M F name batch sample).1.ty = batch.ty ∧
      (Function.createBatchedAdd M F name batch sample).2.2.types = M.types) := by
  refine ⟨?_, ?_, fun M F name inputs dimension outTy => ⟨rfl, rfl⟩,
    fun M F name outTy batch sample => ⟨rfl, rfl⟩, ?_,
    fun M F name batch sample => ⟨rfl, rfl⟩⟩
  · intro M F name input depth kernel stride pad r hr
    unfold Function.createConv at hr
    split at hr
    · split at hr
      · simp only [Option.some.injEq] at hr
        subst hr
        simp only [Function.addNode]
        rw [uniqueType_fst]
        exact uniqueType_mem _ _
      · exact absurd hr (by simp)
    · exact absurd hr (by simp)
  · intro M F name inputs dimension r hr
    unfold Function.createConcat at hr
    split at hr
    · exact absurd hr (by simp)
    · split at hr
      · split at hr
        · simp only [Option.some.injEq] at hr
          subst hr
          simp only [Function.addNode]
          exact uniqueTypeWithNewShape_mem _ _ _
        · exact absurd hr (by simp)
      · exact absurd hr (by simp)
  · intro M F name input W B outTy r hr
    unfold Function.createFullyConnectedOutTy at hr
    split at hr
    · simp only [Option.some.injEq] at hr
      subst hr
      exact ⟨rfl, rfl⟩
    · exact absurd hr (by simp)

theorem typePool_types_C7_witness :
    ∃ r, Function.createConv ⟨[], [], [], 0, 0⟩ ⟨"f", []⟩ ("c")
      ⟨⟨0, 0⟩, ⟨ElemKind.FloatTy, [1, 5, 5, 1], 0, 0⟩⟩ 1 5 1 0 = some r ∧
      r.1.ty ∈ r.2.2.types := by
  cases hr : Function.createConv ⟨[], [], [], 0, 0⟩ ⟨"f", []⟩ ("c")
      ⟨⟨0, 0⟩, ⟨ElemKind.FloatTy, [1, 5, 5, 1], 0, 0⟩⟩ 1 5 1 0 with
  | some r => exact ⟨r, rfl, typePool_types_C7.1 _ _ _ _ _ _ _ _ r hr⟩
  | none => exact absurd hr (by decide)

theorem eraseFirstVar_of_not_mem : ∀ (vars : List Variable) (i : Nat),
    i ∉ vars.map Variable.id → eraseFirstVar vars i = vars := by
  intro vars
  induction vars with
  | nil => intro i _; rfl
  | cons v rest ih =>
    intro i hi
    simp only [List.map_cons, List.mem_cons] at hi
    push_neg at hi
    unfold eraseFirstVar
    rw [if_neg (fun h => hi.1 h.symm), ih i hi.2]

theorem eraseFirstVar_length : ∀ (vars : List Variable) (i : Nat),
    i ∈ vars.map Variable.id → (eraseFirstVar vars i).length + 1 = vars.length := by
  intro vars
  induction vars with
  | nil => intro i hi; simp at hi
  | cons v rest ih =>
    intro i hi
    by_cases hv : v.id = i
    · simp [eraseFirstVar, hv]
    · simp only [List.map_cons, List.mem_cons] at hi
      rcases hi with hi | hi
      · exact absurd hi.symm hv
      · simp only [eraseFirstVar, if_neg hv, List.length_cons]
        rw [← ih i hi]

theorem eraseFirstNode_length : ∀ (nodes : List OpNode) (i : Nat),
    i ∈ nodes.map OpNode.id → (eraseFirstNode nodes i).length + 1 = nodes.length := by
  intro nodes
  induction nodes with
  | nil => intro i hi; simp at hi
  | cons v rest ih =>
    intro i hi
    by_cases hv : v.id = i
    · simp [eraseFirstNode, hv]
    · simp only [List.map_cons, List.mem_cons] at hi
      rcases hi with hi | hi
      · exact absurd hi.symm hv
      · simp only [eraseFirstNode, if_neg hv, List.length_cons]
        rw [← ih i hi]

/-- Claim C8 counterexample: erasing a Variable that the Module does not
own succeeds silently — the std::find of Module::eraseVariable comes back
as vars_.end() and the iterator overload returns without any failure,
leaving the Module and the Function unchanged — whereas the claim says the
operation fails whenever the node is not found. -/
theorem eraseNode_missingVar_cex_C8 :
    Function.eraseNode ⟨[], [], [], 0, 0⟩ ⟨"f", []⟩
        (NodeRef.var ⟨7, "w", ⟨ElemKind.FloatTy, [1], 0, 0⟩,
          VisibilityKind.Private, TrainKind.None⟩) =
      some (⟨[], [], [], 0, 0⟩, ⟨"f", []⟩) ∧
    (7 : Nat) ∉ (⟨[], [], [], 0, 0⟩ : Module).vars.map Variable.id := by
  exact ⟨by decide, by decide⟩

/-- Claim C8 (amended): eraseNode on a Variable delegates to the Module's
eraseVariable and never fails — when the Variable is owned it is removed
from the Module's set (the Function's node list is untouched), and when it
is absent the call is a silent no-op; eraseNode on an operator node removes
it from this Function's list and fails exactly when the node is not
found there. -/
theorem eraseNode_C8 :
    (∀ (M : Module) (F : Function) (V : Variable),
      Function.eraseNode M F (NodeRef.var V) = some (M.eraseVariable V, F)) ∧
    (∀ (M : Module) (F : Function) (V : Variable), V.id ∉ M.vars.map Variable.id →
      Function.eraseNode M F (NodeRef.var V) = some (M, F)) ∧
    (∀ (M : Module) (V : Variable), V.id ∈ M.vars.map Variable.id →
      (M.eraseVariable V).vars.length + 1 = M.vars.length) ∧
    (∀ (M : Module) (F : Function) (nd : OpNode), nd.id ∈ F.nodes.map OpNode.id →
      Function.eraseNode M F (NodeRef.op nd) =
        some (M, ⟨F.name, eraseFirstNode F.nodes nd.id⟩) ∧
      (eraseFirstNode F.nodes nd.id).length + 1 = F.nodes.length) ∧
    (∀ (M : Module) (F : Function) (nd : OpNode), nd.id ∉ F.nodes.map OpNode.id →
      Function.eraseNode M F (NodeRef.op nd) = none) := by
  refine ⟨fun M F V => rfl, fun M F V h => ?_, fun M V h => eraseFirstVar_length M.vars V.id h,
    fun M F nd h => ⟨?_, eraseFirstNode_length F.nodes nd.id h⟩, fun M F nd h => ?_⟩
  · show some (M.eraseVariable V, F) = some (M, F)
    unfold Module.eraseVariable
    rw [eraseFirstVar_of_not_mem M.vars V.id h]
  · have hany : F.nodes.any (fun x => x.id = nd.id) = true := by
      simp only [List.any_eq_true, decide_eq_true_eq]
      simp only [List.mem_map] at h
      obtain ⟨x, hx, hxi⟩ := h
      exact ⟨x, hx, hxi⟩
    unfold Function.eraseNode
    simp only []
    rw [hany]
    rfl
  · have hany : F.nodes.any (fun x => x.id = nd.id) = false := by
      simp only [List.any_eq_false, decide_eq_true_eq]
      intro x hx hxi
      exact h (List.mem_map.mpr ⟨x, hx, hxi⟩)
    unfold Function.eraseNode
    simp only []
    rw [hany]
    rfl

theorem eraseNode_C8_witness :
    Function.eraseNode ⟨[], [⟨3, "w", ⟨ElemKind.FloatTy, [1], 0, 0⟩,
        VisibilityKind.Private, TrainKind.None⟩], [], 0, 4⟩ ⟨"f", []⟩
      (NodeRef.var ⟨3, "w", ⟨ElemKind.FloatTy, [1], 0, 0⟩,
        VisibilityKind.Private, TrainKind.None⟩) =
      some (⟨[], [], [], 0, 4⟩, ⟨"f", []⟩) ∧
    Function.eraseNode ⟨[], [], [], 0, 0⟩ ⟨"f", []⟩
      (NodeRef.op ⟨5, "n", NodeKind.Concat, ⟨ElemKind.FloatTy, [1], 0, 0⟩,
        [], none, [], true⟩) = none := by
  constructor
  · have h := eraseNode_C8.1 ⟨[], [⟨3, "w", ⟨ElemKind.FloatTy, [1], 0, 0⟩,
      VisibilityKind.Private, TrainKind.None⟩], [], 0, 4⟩ ⟨"f", []⟩
      ⟨3, "w", ⟨ElemKind.FloatTy, [1], 0, 0⟩, VisibilityKind.Private, TrainKind.None⟩
    rwa [show Module.eraseVariable ⟨[], [⟨3, "w", ⟨ElemKind.FloatTy, [1], 0, 0⟩,
      VisibilityKind.Private, TrainKind.None⟩], [], 0, 4⟩
      ⟨3, "w", ⟨ElemKind.FloatTy, [1], 0, 0⟩, VisibilityKind.Private, TrainKind.None⟩ =
      ⟨[], [], [], 0, 4⟩ from by decide] at h
  · exact eraseNode_C8.2.2.2.2 ⟨[], [], [], 0, 0⟩ ⟨"f", []⟩
      ⟨5, "n", NodeKind.Concat, ⟨ElemKind.FloatTy, [1], 0, 0⟩, [], none, [], true⟩
      (by decide)

theorem verifyGo_ok_iff (M : Module) : ∀ fs : List Function,
    (M.verifyGo fs = Except.ok () ↔ ∀ F ∈ fs, Function.verify M F = Except.ok ()) := by
  intro fs
  induction fs with
  | nil => simp [Module.verifyGo]
  | cons F rest ih =>
    unfold Module.verifyGo
    cases h : Function.verify M F with
    | error e => simp [h]
    | ok u => cases u; simp [h, ih]

/-- Claim C9: Module::verify does nothing but run each owned Function's
verify, so a Module that owns no Functions verifies successfully no matter
what its Variables look like — in particular duplicate Variable names go
undetected until some Function's verify runs. -/
theorem moduleVerify_C9 (M : Module) :
    (Module.verify M = Except.ok () ↔
      ∀ F ∈ M.functions, Function.verify M F = Except.ok ()) ∧
    (M.functions = [] → Module.verify M = Except.ok ()) := by
  refine ⟨verifyGo_ok_iff M M.functions, fun h => ?_⟩
  unfold Module.verify
  rw [h]
  rfl

theorem moduleVerify_C9_witness :
    Module.verify ⟨[],
      [⟨0, "x", ⟨ElemKind.FloatTy, [1], 0, 0⟩, VisibilityKind.Public, TrainKind.None⟩,
       ⟨1, "x", ⟨ElemKind.FloatTy, [1], 0, 0⟩, VisibilityKind.Public, TrainKind.None⟩],
      [], 0, 2⟩ = Except.ok () ∧
    ¬ ((⟨[],
      [⟨0, "x", ⟨ElemKind.FloatTy, [1], 0, 0⟩, VisibilityKind.Public, TrainKind.None⟩,
       ⟨1, "x", ⟨ElemKind.FloatTy, [1], 0, 0⟩, VisibilityKind.Public, TrainKind.None⟩],
      [], 0, 2⟩ : Module).vars.map Variable.name).Nodup :=
  ⟨(moduleVerify_C9 _).2 rfl, by decide⟩

theorem insertNames_ok_val : ∀ (es m m2 : List (String × Nat)),
    insertNames m es = Except.ok m2 → m2 = es.reverse ++ m := by
  intro es
  induction es with
  | nil =>
    intro m m2 h
    simp only [insertNames, Except.ok.injEq] at h
    simp [h]
  | cons e rest ih =>
    intro m m2 h
    simp only [insertNames] at h
    cases hf : (m.find? fun p => p.1 == e.1) with
    | some q => rw [hf] at h; simp at h
    | none =>
      rw [hf] at h
      have := ih (e :: m) m2 h
      simp [this]

theorem insertNames_isOk_iff : ∀ (es m : List (String × Nat)),
    ((∃ m2, insertNames m es = Except.ok m2) ↔
      ((es.map Prod.fst).Nodup ∧ ∀ p ∈ m, ∀ e ∈ es, p.1 ≠ e.1)) := by
  intro es
  induction es with
  | nil =>
    intro m
    simp [insertNames]
  | cons e rest ih =>
    intro m
    simp only [insertNames]
    cases hf : (m.find? fun p => p.1 == e.1) with
    | some q =>
      have hq1 : q.1 = e.1 := by simpa using List.find?_some hf
      have hqm : q ∈ m := List.mem_of_find?_eq_some hf
      constructor
      · rintro ⟨m2, h⟩
        simp at h
      · rintro ⟨_, hdisj⟩
        exact absurd hq1 (hdisj q hqm e (List.mem_cons_self e rest))
    | none =>
      rw [ih (e :: m)]
      have hnone : ∀ p ∈ m, p.1 ≠ e.1 := by
        intro p hp hpe
        have := List.find?_eq_none.mp hf p hp
        simp [hpe] at this
      constructor
      · rintro ⟨hnd, hdisj⟩
        refine ⟨?_, ?_⟩
        · simp only [List.map_cons, List.nodup_cons]
          refine ⟨?_, hnd⟩
          intro hmem
          obtain ⟨e2, he2, he2eq⟩ := List.mem_map.mp hmem
          exact hdisj e (List.mem_cons_self e m) e2 he2 he2eq.symm
        · intro p hp e2 he2
          rcases List.mem_cons.mp he2 with he2 | he2
          · rw [he2]; exact hnone p hp
          · exact hdisj p (List.mem_cons_of_mem e hp) e2 he2
      · rintro ⟨hnd, hdisj⟩
        simp only [List.map_cons, List.nodup_cons] at hnd
        refine ⟨hnd.2, ?_⟩
        intro p hp e2 he2
        rcases List.mem_cons.mp hp with hp | hp
        · rw [hp]
          intro hee
          exact hnd.1 (List.mem_map.mpr ⟨e2, he2, hee.symm⟩)
        · exact hdisj p hp e2 (List.mem_cons_of_mem e he2)

theorem insertNames_error_split : ∀ (es m : List (String × Nat)) (nm : String) (p c : Nat),
    insertNames m es = Except.error (VerifyErr.nameConflict nm p c) →
    ((nm, p) ∈ m ∧ (nm, c) ∈ es) ∨
      ∃ l1 l2 l3, es = l1 ++ (nm, p) :: l2 ++ (nm, c) :: l3 := by
  intro es
  induction es with
  | nil => intro m nm p c h; simp [insertNames] at h
  | cons e rest ih =>
    intro m nm p c h
    simp only [insertNames] at h
    cases hf : (m.find? fun q => q.1 == e.1) with
    | some q =>
      rw [hf] at h
      simp only [Except.error.injEq, VerifyErr.nameConflict.injEq] at h
      obtain ⟨h1, h2, h3⟩ := h
      have hq1 : q.1 = e.1 := by simpa using List.find?_some hf
      have hqm : q ∈ m := List.mem_of_find?_eq_some hf
      left
      constructor
      · have : (nm, p) = q := by
          rw [← h1, ← h2, ← hq1]
        rw [this]
        exact hqm
      · have : (nm, c) = e := by
          rw [← h1, ← h3]
        rw [this]
        exact List.mem_cons_self e rest
    | none =>
      rw [hf] at h
      rcases ih (e :: m) nm p c h with ⟨hpm, hcm⟩ | ⟨l1, l2, l3, hsplit⟩
      · rcases List.mem_cons.mp hpm with hpe | hpm2
        · right
          obtain ⟨s, t, hst⟩ := List.append_of_mem hcm
          exact ⟨[], s, t, by simp [← hpe, hst]⟩
        · exact Or.inl ⟨hpm2, List.mem_cons_of_mem e hcm⟩
      · right
        exact ⟨e :: l1, l2, l3, by simp [hsplit]⟩

theorem contains_or_iff (a b : List Nat) (x : Nat) :
    ((a.contains x || b.contains x) = true) ↔ (x ∈ a ∨ x ∈ b) := by
  simp

theorem checkInputsAux_ok_iff : ∀ (ins : List NodeValue) (a b : List Nat) (nid idx : Nat),
    (checkInputsAux a b nid idx ins = Except.ok () ↔
      ∀ inp ∈ ins, inp.producer ∈ a ∨ inp.producer ∈ b) := by
  intro ins
  induction ins with
  | nil => intro a b nid idx; simp [checkInputsAux]
  | cons inp rest ih =>
    intro a b nid idx
    unfold checkInputsAux
    by_cases hc : (a.contains inp.producer || b.contains inp.producer) = true
    · rw [if_pos hc, ih]
      have hcm := (contains_or_iff a b inp.producer).mp hc
      constructor
      · intro h i hi
        rcases List.mem_cons.mp hi with hi | hi
        · rw [hi]; exact hcm
        · exact h i hi
      · intro h i hi
        exact h i (List.mem_cons_of_mem inp hi)
    · rw [if_neg hc]
      constructor
      · intro h; simp at h
      · intro h
        exact absurd ((contains_or_iff a b inp.producer).mpr
          (h inp (List.mem_cons_self inp rest))) hc

theorem checkInputsAux_error_shape : ∀ (ins : List NodeValue) (a b : List Nat)
    (nid idx : Nat) (e : VerifyErr), checkInputsAux a b nid idx ins = Except.error e →
    ∃ i j, e = VerifyErr.danglingEdge i j := by
  intro ins
  induction ins with
  | nil => intro a b nid idx e h; simp [checkInputsAux] at h
  | cons inp rest ih =>
    intro a b nid idx e h
    unfold checkInputsAux at h
    by_cases hc : (a.contains inp.producer || b.contains inp.producer) = true
    · rw [if_pos hc] at h
      exact ih a b nid (idx + 1) e h
    · rw [if_neg hc] at h
      simp only [Except.error.injEq] at h
      exact ⟨nid, idx, h.symm⟩

theorem checkAllInputs_ok_iff : ∀ (nodes : List OpNode) (a b : List Nat),
    (checkAllInputs a b nodes = Except.ok () ↔
      ∀ N ∈ nodes, ∀ inp ∈ N.inputs, inp.producer ∈ a ∨ inp.producer ∈ b) := by
  intro nodes
  induction nodes with
  | nil => intro a b; simp [checkAllInputs]
  | cons N rest ih =>
    intro a b
    unfold checkAllInputs
    cases hN : checkInputsAux a b N.id 0 N.inputs with
    | error e =>
      constructor
      · intro h; simp at h
      · intro h
        have := (checkInputsAux_ok_iff N.inputs a b N.id 0).mpr
          (h N (List.mem_cons_self N rest))
        rw [hN] at this
        simp at this
    | ok u =>
      cases u
      rw [ih]
      have hNok := (checkInputsAux_ok_iff N.inputs a b N.id 0).mp hN
      constructor
      · intro h M hM
        rcases List.mem_cons.mp hM with hM | hM
        · rw [hM]; exact hNok
        · exact h M hM
      · intro h M hM
        exact h M (List.mem_cons_of_mem N hM)

theorem checkAllInputs_error_shape : ∀ (nodes : List OpNode) (a b : List Nat)
    (e : VerifyErr), checkAllInputs a b nodes = Except.error e →
    ∃ i j, e = VerifyErr.danglingEdge i j := by
  intro nodes
  induction nodes with
  | nil => intro a b e h; simp [checkAllInputs] at h
  | cons N rest ih =>
    intro a b e h
    unfold checkAllInputs at h
    cases hN : checkInputsAux a b N.id 0 N.inputs with
    | error e2 =>
      rw [hN] at h
      simp only [Except.error.injEq] at h
      rw [← h]
      exact checkInputsAux_error_shape N.inputs a b N.id 0 e2 hN
    | ok u =>
      cases u
      rw [hN] at h
      exact ih a b e h

theorem checkLocal_ok_iff : ∀ (nodes : List OpNode),
    (checkLocal nodes = Except.ok () ↔ ∀ N ∈ nodes, N.localOk = true) := by
  intro nodes
  induction nodes with
  | nil => simp [checkLocal]
  | cons N rest ih =>
    unfold checkLocal
    by_cases hN : N.localOk
    · rw [if_pos hN, ih]
      constructor
      · intro h M hM
        rcases List.mem_cons.mp hM with hM | hM
        · rw [hM]; exact hN
        · exact h M hM
      · intro h M hM
        exact h M (List.mem_cons_of_mem N hM)
    · rw [if_neg hN]
      constructor
      · intro h; simp at h
      · intro h
        exact absurd (h N (List.mem_cons_self N rest)) hN

theorem checkLocal_error_shape : ∀ (nodes : List OpNode) (e : VerifyErr),
    checkLocal nodes = Except.error e → ∃ i, e = VerifyErr.localCheck i := by
  intro nodes
  induction nodes with
  | nil => intro e h; simp [checkLocal] at h
  | cons N rest ih =>
    intro e h
    unfold checkLocal at h
    by_cases hN : N.localOk
    · rw [if_pos hN] at h
      exact ih e h
    · rw [if_neg hN] at h
      simp only [Except.error.injEq] at h
      exact ⟨N.id, h.symm⟩

theorem varPairs_fst (M : Module) :
    (M.vars.map fun v => (v.name, v.id)).map Prod.fst = M.vars.map Variable.name := by
  simp [List.map_map]

theorem nodePairs_fst (F : Function) :
    (F.nodes.map fun n => (n.name, n.id)).map Prod.fst = F.nodes.map OpNode.name := by
  simp [List.map_map]

theorem verify_ok_iff (M : Module) (F : Function) :
    Function.verify M F = Except.ok () ↔
      ((M.vars.map Variable.name ++ F.nodes.map OpNode.name).Nodup ∧
       (∀ N ∈ F.nodes, ∀ inp ∈ N.inputs,
         inp.producer ∈ F.nodes.map OpNode.id ∨ inp.producer ∈ M.vars.map Variable.id) ∧
       ∀ N ∈ F.nodes, N.localOk = true) := by
  have hconv : ∀ (m : List (String × Nat)),
      m = (M.vars.map fun v => (v.name, v.id)).reverse →
      ((∀ p ∈ m, ∀ e ∈ (F.nodes.map fun n => (n.name, n.id)), p.1 ≠ e.1) ↔
        (M.vars.map Variable.name).Disjoint (F.nodes.map OpNode.name)) := by
    intro m hm
    subst hm
    constructor
    · intro h x hx1 hx2
      obtain ⟨v, hv, hveq⟩ := List.mem_map.mp hx1
      obtain ⟨n, hn, hneq⟩ := List.mem_map.mp hx2
      exact h (v.name, v.id) (List.mem_reverse.mpr (List.mem_map.mpr ⟨v, hv, rfl⟩))
        (n.name, n.id) (List.mem_map.mpr ⟨n, hn, rfl⟩) (by simp [hveq, hneq])
    · intro h p hp e he hpe
      obtain ⟨v, hv, hveq⟩ := List.mem_map.mp (List.mem_reverse.mp hp)
      obtain ⟨n, hn, hneq⟩ := List.mem_map.mp he
      have h1 : v.name = p.1 := by rw [← hveq]
      have h2 : n.name = e.1 := by rw [← hneq]
      exact h (List.mem_map.mpr ⟨v, hv, rfl⟩)
        (List.mem_map.mpr ⟨n, hn, by rw [h2, ← hpe, ← h1]⟩)
  unfold Function.verify
  cases h1 : insertNames [] (M.vars.map fun v => (v.name, v.id)) with
  | error e =>
    simp only []
    constructor
    · intro h; simp at h
    · rintro ⟨hA, _, _⟩
      have hvar : ((M.vars.map fun v => (v.name, v.id)).map Prod.fst).Nodup := by
        rw [varPairs_fst]
        exact ((List.nodup_append).mp hA).1
      obtain ⟨m2, hm2⟩ := (insertNames_isOk_iff (M.vars.map fun v => (v.name, v.id)) []).mpr
        ⟨hvar, by simp⟩
      rw [h1] at hm2
      simp at hm2
  | ok m =>
    simp only []
    have hmval : m = (M.vars.map fun v => (v.name, v.id)).reverse := by
      simpa using insertNames_ok_val _ _ _ h1
    cases h2 : insertNames m (F.nodes.map fun n => (n.name, n.id)) with
    | error e =>
      simp only []
      constructor
      · intro h; simp at h
      · rintro ⟨hA, _, _⟩
        obtain ⟨hv, hn, hd⟩ := (List.nodup_append).mp hA
        have hnode : ((F.nodes.map fun n => (n.name, n.id)).map Prod.fst).Nodup := by
          rw [nodePairs_fst]; exact hn
        obtain ⟨m2, hm2⟩ := (insertNames_isOk_iff (F.nodes.map fun n => (n.name, n.id)) m).mpr
          ⟨hnode, (hconv m hmval).mpr hd⟩
        rw [h2] at hm2
        simp at hm2
    | ok m2 =>
      simp only []
      have hA : (M.vars.map Variable.name ++ F.nodes.map OpNode.name).Nodup := by
        have hs1 := (insertNames_isOk_iff (M.vars.map fun v => (v.name, v.id)) []).mp ⟨m, h1⟩
        have hs2 := (insertNames_isOk_iff (F.nodes.map fun n => (n.name, n.id)) m).mp ⟨m2, h2⟩
        rw [varPairs_fst] at hs1
        rw [nodePairs_fst] at hs2
        exact (List.nodup_append).mpr ⟨hs1.1, hs2.1, (hconv m hmval).mp hs2.2⟩
      cases h3 : checkAllInputs (F.nodes.map OpNode.id) (M.vars.map Variable.id) F.nodes with
      | error e =>
        simp only []
        constructor
        · intro h; simp at h
        · rintro ⟨_, hB, _⟩
          have := (checkAllInputs_ok_iff F.nodes _ _).mpr hB
          rw [h3] at this
          simp at this
      | ok u =>
        cases u
        simp only []
        have hB := (checkAllInputs_ok_iff F.nodes _ _).mp h3
        rw [checkLocal_ok_iff F.nodes]
        constructor
        · intro hC
          exact ⟨hA, hB, hC⟩
        · rintro ⟨_, _, hC⟩
          exact hC

theorem verify_error_report (M : Module) (F : Function) (nm : String) (p c : Nat)
    (h : Function.verify M F = Except.error (VerifyErr.nameConflict nm p c)) :
    ∃ l1 l2 l3,
      (M.vars.map fun v => (v.name, v.id)) ++ (F.nodes.map fun n => (n.name, n.id)) =
        l1 ++ (nm, p) :: l2 ++ (nm, c) :: l3 := by
  unfold Function.verify at h
  cases h1 : insertNames [] (M.vars.map fun v => (v.name, v.id)) with
  | error e =>
    rw [h1] at h
    simp only [Except.error.injEq] at h
    rw [h] at h1
    rcases insertNames_error_split _ _ _ _ _ h1 with ⟨hpm, _⟩ | ⟨l1, l2, l3, hsplit⟩
    · simp at hpm
    · exact ⟨l1, l2, l3 ++ (F.nodes.map fun n => (n.name, n.id)), by simp [hsplit]⟩
  | ok m =>
    have hmval : m = (M.vars.map fun v => (v.name, v.id)).reverse := by
      simpa using insertNames_ok_val _ _ _ h1
    rw [h1] at h
    simp only [] at h
    cases h2 : insertNames m (F.nodes.map fun n => (n.name, n.id)) with
    | error e =>
      rw [h2] at h
      simp only [Except.error.injEq] at h
      rw [h] at h2
      rcases insertNames_error_split _ _ _ _ _ h2 with ⟨hpm, hcm⟩ | ⟨l1, l2, l3, hsplit⟩
      · have hpv : (nm, p) ∈ (M.vars.map fun v => (v.name, v.id)) := by
          rw [hmval] at hpm
          exact List.mem_reverse.mp hpm
        obtain ⟨s, t, hst⟩ := List.append_of_mem hpv
        obtain ⟨d, g, hdg⟩ := List.append_of_mem hcm
        exact ⟨s, t ++ d, g, by simp [hst, hdg]⟩
      · exact ⟨(M.vars.map fun v => (v.name, v.id)) ++ l1, l2, l3, by simp [hsplit]⟩
    | ok m2 =>
      rw [h2] at h
      simp only [] at h
      cases h3 : checkAllInputs (F.nodes.map OpNode.id) (M.vars.map Variable.id) F.nodes with
      | error e =>
        rw [h3] at h
        simp only [Except.error.injEq] at h
        obtain ⟨i, j, hij⟩ := checkAllInputs_error_shape _ _ _ _ h3
        rw [hij] at h
        simp at h
      | ok u =>
        cases u
        rw [h3] at h
        simp only [] at h
        cases h4 : checkLocal F.nodes with
        | error e =>
          rw [h4] at h
          obtain ⟨i, hi⟩ := checkLocal_error_shape _ _ h4
          rw [hi] at h
          simp at h
        | ok u =>
          cases u
          rw [h4] at h
          simp at h

/-- Claim C1 counterexample: a Function whose only node carries a
predicate edge pointing at identity 99 — resolving neither to a node of
the Function nor to a Variable of the Module — still verifies
successfully: Function::verify walks only the positional inputs, so the
dangling predicate edge is not reported. -/
theorem verify_predicate_cex_C1 :
    Function.verify ⟨[], [], [], 0, 0⟩
        ⟨"f", [⟨0, "a", NodeKind.Concat, ⟨ElemKind.FloatTy, [1], 0, 0⟩,
          [], some ⟨99, 0⟩, [], true⟩]⟩ = Except.ok () ∧
    (⟨0, "a", NodeKind.Concat, ⟨ElemKind.FloatTy, [1], 0, 0⟩,
      [], some ⟨99, 0⟩, [], true⟩ : OpNode).predicate = some ⟨99, 0⟩ ∧
    (99 : Nat) ∉ ([⟨0, "a", NodeKind.Concat, ⟨ElemKind.FloatTy, [1], 0, 0⟩,
      [], some ⟨99, 0⟩, [], true⟩] : List OpNode).map OpNode.id ∧
    (99 : Nat) ∉ ([] : List Variable).map Variable.id := by
  exact ⟨by rfl, by decide, by decide, by decide⟩

/-- Claim C1 (amended): Function::verify succeeds exactly when (a) no name
collides across the union of the Module's Variables and this Function's
nodes, (b) every positional input edge of every node resolves to a node of
this Function or a Variable of the Module — predicate edges are not
examined — and (c) every node's local consistency check passes; and a name
conflict is reported with both conflicting definitions: the error carries
a name under which two distinct entries of the Variables-then-nodes
definition sequence occur, the reported previous and current ones. -/
theorem verify_semantics_C1 (M : Module) (F : Function) :
    (Function.verify M F = Except.ok () ↔
      ((M.vars.map Variable.name ++ F.nodes.map OpNode.name).Nodup ∧
       (∀ N ∈ F.nodes, ∀ inp ∈ N.inputs,
         inp.producer ∈ F.nodes.map OpNode.id ∨ inp.producer ∈ M.vars.map Variable.id) ∧
       ∀ N ∈ F.nodes, N.localOk = true)) ∧
    (∀ (nm : String) (p c : Nat),
      Function.verify M F = Except.error (VerifyErr.nameConflict nm p c) →
      ∃ l1 l2 l3,
        (M.vars.map fun v => (v.name, v.id)) ++ (F.nodes.map fun n => (n.name, n.id)) =
          l1 ++ (nm, p) :: l2 ++ (nm, c) :: l3) :=
  ⟨verify_ok_iff M F, fun nm p c h => verify_error_report M F nm p c h⟩

theorem verify_semantics_C1_witness :
    Function.verify
      ⟨[], [⟨0, "v", ⟨ElemKind.FloatTy, [1], 0, 0⟩, VisibilityKind.Public, TrainKind.None⟩],
        [], 0, 2⟩
      ⟨"f", [⟨1, "n", NodeKind.Concat, ⟨ElemKind.FloatTy, [1], 0, 0⟩,
        [⟨0, 0⟩], none, [], true⟩]⟩ = Except.ok () :=
  (verify_semantics_C1
    ⟨[], [⟨0, "v", ⟨ElemKind.FloatTy, [1], 0, 0⟩, VisibilityKind.Public, TrainKind.None⟩],
      [], 0, 2⟩
    ⟨"f", [⟨1, "n", NodeKind.Concat, ⟨ElemKind.FloatTy, [1], 0, 0⟩,
      [⟨0, 0⟩], none, [], true⟩]⟩).1.mpr (by decide)

theorem forall₂_trans {α β γ : Type} {R : α → β → Prop} {S : β → γ → Prop}
    {T : α → γ → Prop} (h : ∀ a b c, R a b → S b c → T a c) :
    ∀ {l1 : List α} {l2 : List β} {l3 : List γ},
      List.Forall₂ R l1 l2 → List.Forall₂ S l2 l3 → List.Forall₂ T l1 l3 := by
  intro l1 l2 l3 h12
  induction h12 generalizing l3 with
  | nil =>
    intro h23
    cases h23
    exact List.Forall₂.nil
  | cons hr _ ih =>
    intro h23
    cases h23 with
    | cons hs h23rest => exact List.Forall₂.cons (h _ _ _ hr hs) (ih h23rest)

theorem forall₂_mem_left {α β : Type} {R : α → β → Prop} :
    ∀ {l1 : List α} {l2 : List β}, List.Forall₂ R l1 l2 →
      ∀ a ∈ l1, ∃ b ∈ l2, R a b := by
  intro l1 l2 h
  induction h with
  | nil => intro a ha; simp at ha
  | cons hr _ ih =>
    intro a ha
    rcases List.mem_cons.mp ha with ha | ha
    · exact ⟨_, List.mem_cons_self _ _, ha ▸ hr⟩
    · obtain ⟨b, hb, hab⟩ := ih a ha
      exact ⟨b, List.mem_cons_of_mem _ hb, hab⟩

theorem forall₂_mem_right {α β : Type} {R : α → β → Prop} :
    ∀ {l1 : List α} {l2 : List β}, List.Forall₂ R l1 l2 →
      ∀ b ∈ l2, ∃ a ∈ l1, R a b := by
  intro l1 l2 h
  induction h with
  | nil => intro b hb; simp at hb
  | cons hr _ ih =>
    intro b hb
    rcases List.mem_cons.mp hb with hb | hb
    · exact ⟨_, List.mem_cons_self _ _, hb ▸ hr⟩
    · obtain ⟨a, ha, hab⟩ := ih b hb
      exact ⟨a, List.mem_cons_of_mem _ ha, hab⟩

theorem forall₂_map_id {R : OpNode → OpNode → Prop}
    (hR : ∀ a b, R a b → b.id = a.id) :
    ∀ {l1 l2 : List OpNode}, List.Forall₂ R l1 l2 →
      l2.map OpNode.id = l1.map OpNode.id := by
  intro l1 l2 h
  induction h with
  | nil => rfl
  | cons hr _ ih => simp [ih, hR _ _ hr]

theorem lookup_cons_self (m : List (Nat × Nat)) (k v : Nat) :
    lookupMap ((k, v) :: m) k = some v := by
  simp [lookupMap]

theorem lookup_cons_ne (m : List (Nat × Nat)) (k v x : Nat) (h : x ≠ k) :
    lookupMap ((k, v) :: m) x = lookupMap m x := by
  simp only [lookupMap, List.find?]
  have hkx : (k == x) = false := by
    simp only [beq_eq_false_iff_ne, ne_eq]
    exact fun he => h he.symm
  rw [hkx]

theorem lookup_none_of_not_mem (m : List (Nat × Nat)) (x : Nat)
    (h : x ∉ m.map Prod.fst) : lookupMap m x = none := by
  unfold lookupMap
  rw [List.find?_eq_none.mpr]
  · rfl
  · intro p hp
    simp only [beq_iff_eq]
    intro hpx
    exact h (List.mem_map.mpr ⟨p, hp, hpx⟩)

theorem lookup_isSome_of_mem (m : List (Nat × Nat)) (x : Nat)
    (h : x ∈ m.map Prod.fst) : (lookupMap m x).isSome = true := by
  obtain ⟨p, hp, hpx⟩ := List.mem_map.mp h
  unfold lookupMap
  rw [Option.isSome_map']
  rw [List.find?_isSome]
  exact ⟨p, hp, by simp [hpx]⟩

theorem cloneMap_fst : ∀ (l : List OpNode) (b : Nat),
    (cloneMap b l).map Prod.fst = l.map OpNode.id := by
  intro l
  induction l with
  | nil => intro b; rfl
  | cons n rest ih => intro b; simp [cloneMap, ih (b + 1)]

theorem cloneMap_snd : ∀ (l : List OpNode) (b : Nat),
    (cloneMap b l).map Prod.snd = (cloneNodes b l).map OpNode.id := by
  intro l
  induction l with
  | nil => intro b; rfl
  | cons n rest ih => intro b; simp [cloneMap, cloneNodes, ih (b + 1)]

theorem cloneNodes_rel : ∀ (l : List OpNode) (b : Nat),
    List.Forall₂ (fun old copy => copy.name = old.name ∧ copy.kind = old.kind ∧
      copy.ty = old.ty ∧ copy.params = old.params ∧ copy.inputs = old.inputs ∧
      b ≤ copy.id) l (cloneNodes b l) := by
  intro l
  induction l with
  | nil => intro b; exact List.Forall₂.nil
  | cons n rest ih =>
    intro b
    refine List.Forall₂.cons ⟨rfl, rfl, rfl, rfl, rfl, le_refl b⟩ ?_
    exact (ih (b + 1)).imp (fun a c hc =>
      ⟨hc.1, hc.2.1, hc.2.2.1, hc.2.2.2.1, hc.2.2.2.2.1,
        le_trans (Nat.le_succ b) hc.2.2.2.2.2⟩)

theorem clone_rel : ∀ (l : List OpNode) (b : Nat) (mBig : List (Nat × Nat)),
    (l.map OpNode.id).Nodup →
    (∀ x ∈ l.map OpNode.id, lookupMap mBig x = lookupMap (cloneMap b l) x) →
    List.Forall₂ (fun old copy => copy.name = old.name ∧ copy.kind = old.kind ∧
      copy.ty = old.ty ∧ copy.params = old.params ∧ copy.inputs = old.inputs ∧
      b ≤ copy.id ∧ lookupMap mBig old.id = some copy.id) l (cloneNodes b l) := by
  intro l
  induction l with
  | nil => intro b mBig _ _; exact List.Forall₂.nil
  | cons n rest ih =>
    intro b mBig hnodup hagree
    simp only [List.map_cons, List.nodup_cons] at hnodup
    refine List.Forall₂.cons ⟨rfl, rfl, rfl, rfl, rfl, le_refl b, ?_⟩ ?_
    · rw [hagree n.id (by simp)]
      exact lookup_cons_self _ n.id b
    · have hagree2 : ∀ x ∈ rest.map OpNode.id,
          lookupMap mBig x = lookupMap (cloneMap (b + 1) rest) x := by
        intro x hx
        have hxn : x ≠ n.id := fun he => hnodup.1 (he ▸ hx)
        rw [hagree x (by simp [hx])]
        exact lookup_cons_ne _ n.id b x hxn
      exact (ih (b + 1) mBig hnodup.2 hagree2).imp (fun a c hc =>
        ⟨hc.1, hc.2.1, hc.2.2.1, hc.2.2.2.1, hc.2.2.2.2.1,
          le_trans (Nat.le_succ b) hc.2.2.2.2.2.1, hc.2.2.2.2.2.2⟩)

theorem rewriteInputs_some (m : List (Nat × Nat)) (varIds : List Nat) :
    ∀ (ins : List NodeValue),
      (∀ inp ∈ ins, (lookupMap m inp.producer).isSome = true ∨ inp.producer ∈ varIds) →
      ∃ outs, rewriteInputs m varIds ins = some outs ∧
        List.Forall₂ (fun oi ni => ni.resNo = oi.resNo ∧
          (∀ x, lookupMap m oi.producer = some x → ni.producer = x) ∧
          (lookupMap m oi.producer = none → ni = oi ∧ oi.producer ∈ varIds))
          ins outs := by
  intro ins
  induction ins with
  | nil => intro _; exact ⟨[], rfl, List.Forall₂.nil⟩
  | cons inp rest ih =>
    intro h
    obtain ⟨outs, houts, hrel⟩ := ih (fun i hi => h i (List.mem_cons_of_mem inp hi))
    cases hl : lookupMap m inp.producer with
    | some x =>
      refine ⟨⟨x, inp.resNo⟩ :: outs, ?_, ?_⟩
      · simp only [rewriteInputs, rewriteInput, hl, houts]
      · refine List.Forall₂.cons ⟨rfl, ?_, ?_⟩ hrel
        · intro y hy
          rw [hl] at hy
          simp only [Option.some.injEq] at hy
          simp [hy]
        · intro hn; rw [hl] at hn; simp at hn
    | none =>
      have hv : inp.producer ∈ varIds := by
        rcases h inp (List.mem_cons_self inp rest) with hs | hv
        · rw [hl] at hs; simp at hs
        · exact hv
      have hcont : varIds.contains inp.producer = true := by simpa using hv
      refine ⟨inp :: outs, ?_, ?_⟩
      · simp only [rewriteInputs, rewriteInput, hl, hcont, if_true, houts]
      · refine List.Forall₂.cons ⟨rfl, ?_, fun _ => ⟨rfl, hv⟩⟩ hrel
        intro y hy
        rw [hl] at hy
        simp at hy

theorem rewriteInputs_none_of (m : List (Nat × Nat)) (varIds : List Nat) :
    ∀ (ins : List NodeValue),
      (∃ inp ∈ ins, rewriteInput m varIds inp = none) →
      rewriteInputs m varIds ins = none := by
  intro ins
  induction ins with
  | nil => rintro ⟨inp, hi, _⟩; simp at hi
  | cons inp rest ih =>
    rintro ⟨i, hi, hnone⟩
    rcases List.mem_cons.mp hi with hi | hi
    · subst hi
      simp only [rewriteInputs, hnone]
    · unfold rewriteInputs
      rw [ih ⟨i, hi, hnone⟩]
      cases rewriteInput m varIds inp <;> rfl

theorem rewriteNodesGo_some (m : List (Nat × Nat)) (varIds : List Nat) :
    ∀ (l : List OpNode),
      (∀ N ∈ l, ∀ inp ∈ N.inputs,
        (lookupMap m inp.producer).isSome = true ∨ inp.producer ∈ varIds) →
      ∃ outs, rewriteNodesGo m varIds l = some outs ∧
        List.Forall₂ (fun copy out => out.id = copy.id ∧ out.name = copy.name ∧
          out.kind = copy.kind ∧ out.ty = copy.ty ∧ out.params = copy.params ∧
          List.Forall₂ (fun oi ni => ni.resNo = oi.resNo ∧
            (∀ x, lookupMap m oi.producer = some x → ni.producer = x) ∧
            (lookupMap m oi.producer = none → ni = oi ∧ oi.producer ∈ varIds))
            copy.inputs out.inputs) l outs := by
  intro l
  induction l with
  | nil => intro _; exact ⟨[], rfl, List.Forall₂.nil⟩
  | cons N rest ih =>
    intro h
    obtain ⟨outs, houts, hrel⟩ := ih (fun M hM => h M (List.mem_cons_of_mem N hM))
    obtain ⟨ins2, hins2, hinrel⟩ := rewriteInputs_some m varIds N.inputs
      (h N (List.mem_cons_self N rest))
    refine ⟨{ N with inputs := ins2 } :: outs, ?_, ?_⟩
    · simp only [rewriteNodesGo, hins2, houts]
    · exact List.Forall₂.cons ⟨rfl, rfl, rfl, rfl, rfl, hinrel⟩ hrel

theorem rewriteNodesGo_none_of (m : List (Nat × Nat)) (varIds : List Nat) :
    ∀ (l : List OpNode),
      (∃ N ∈ l, rewriteInputs m varIds N.inputs = none) →
      rewriteNodesGo m varIds l = none := by
  intro l
  induction l with
  | nil => rintro ⟨N, hN, _⟩; simp at hN
  | cons N rest ih =>
    rintro ⟨K, hK, hnone⟩
    rcases List.mem_cons.mp hK with hK | hK
    · subst hK
      simp only [rewriteNodesGo, hnone]
    · unfold rewriteNodesGo
      rw [ih ⟨K, hK, hnone⟩]
      cases rewriteInputs m varIds N.inputs <;> rfl

/-- Claim C2: when every input of every node of F resolves to a node of F
or a Variable of the Module (and the new name is free, node identities are
distinct and below the allocator — the heap invariants of the source),
clone produces a new Function registered in the same Module with the same
node count; every operator node is duplicated as a distinct instance
(fresh identity, equal name/kind/type/parameters); the returned map sends
exactly the operator nodes of F (in order) onto the duplicates; every
duplicate's input edge whose producer is an operator node of F is
redirected through the map to the corresponding duplicate keeping its
result-slot index, while an edge whose producer is not in the map is left
untouched and points at a Variable of the Module; and when some input
resolves to neither a mapped operator node nor a Variable, clone fails. -/
theorem clone_C2 (M : Module) (F : Function) (newName : String) :
    ((∀ G ∈ M.functions, G.name ≠ newName) →
     (F.nodes.map OpNode.id).Nodup →
     (∀ i ∈ F.nodes.map OpNode.id, i < M.nextId) →
     (∀ N ∈ F.nodes, ∀ inp ∈ N.inputs,
        inp.producer ∈ F.nodes.map OpNode.id ∨ inp.producer ∈ M.vars.map Variable.id) →
     ∃ newF m M2, Function.clone M F newName = some (newF, m, M2) ∧
       newF.name = newName ∧
       M2.functions = M.functions ++ [newF] ∧
       newF.nodes.length = F.nodes.length ∧
       m.map Prod.fst = F.nodes.map OpNode.id ∧
       m.map Prod.snd = newF.nodes.map OpNode.id ∧
       List.Forall₂ (fun old new =>
         lookupMap m old.id = some new.id ∧
         new.name = old.name ∧ new.kind = old.kind ∧ new.ty = old.ty ∧
         new.params = old.params ∧ new.id ∉ F.nodes.map OpNode.id ∧
         List.Forall₂ (fun oi ni =>
           ni.resNo = oi.resNo ∧
           (∀ x, lookupMap m oi.producer = some x → ni.producer = x) ∧
           (lookupMap m oi.producer = none →
             ni = oi ∧ oi.producer ∈ M.vars.map Variable.id)) old.inputs new.inputs)
         F.nodes newF.nodes) ∧
    ((∃ N ∈ F.nodes, ∃ inp ∈ N.inputs,
        inp.producer ∉ F.nodes.map OpNode.id ∧ inp.producer ∉ M.vars.map Variable.id) →
     Function.clone M F newName = none) := by
  constructor
  · intro hname hnodup hfresh hclosed
    have hhf : ¬ (M.hasFunction newName = true) := by
      simp only [Module.hasFunction, List.any_eq_true, beq_iff_eq]
      rintro ⟨G, hG, hGn⟩
      exact hname G hG hGn
    have hrel1 := clone_rel F.nodes M.nextId (cloneMap M.nextId F.nodes) hnodup
      (fun x _ => rfl)
    have hedge : ∀ N ∈ cloneNodes M.nextId F.nodes, ∀ inp ∈ N.inputs,
        (lookupMap (cloneMap M.nextId F.nodes) inp.producer).isSome = true ∨
        inp.producer ∈ M.vars.map Variable.id := by
      intro N hN inp hinp
      obtain ⟨old, hold, hrel⟩ := forall₂_mem_right hrel1 N hN
      rw [hrel.2.2.2.2.1] at hinp
      rcases hclosed old hold inp hinp with hid | hvar
      · left
        apply lookup_isSome_of_mem
        rw [cloneMap_fst]
        exact hid
      · exact Or.inr hvar
    obtain ⟨outs, houts, hrel2⟩ := rewriteNodesGo_some (cloneMap M.nextId F.nodes)
      (M.vars.map Variable.id) (cloneNodes M.nextId F.nodes) hedge
    refine ⟨⟨newName, outs⟩, cloneMap M.nextId F.nodes,
      { M with functions := M.functions ++ [⟨newName, outs⟩],
               nextId := M.nextId + F.nodes.length }, ?_, rfl, rfl, ?_, ?_, ?_, ?_⟩
    · unfold Function.clone
      rw [if_neg hhf]
      simp only [houts]
    · have h1 := List.Forall₂.length_eq hrel1
      have h2 := List.Forall₂.length_eq hrel2
      show outs.length = F.nodes.length
      omega
    · exact cloneMap_fst F.nodes M.nextId
    · rw [cloneMap_snd]
      exact (forall₂_map_id (fun a b h => h.1) hrel2).symm
    · have hcomb : List.Forall₂ (fun old out =>
          M.nextId ≤ out.id ∧
          lookupMap (cloneMap M.nextId F.nodes) old.id = some out.id ∧
          out.name = old.name ∧ out.kind = old.kind ∧ out.ty = old.ty ∧
          out.params = old.params ∧
          List.Forall₂ (fun oi ni =>
            ni.resNo = oi.resNo ∧
            (∀ x, lookupMap (cloneMap M.nextId F.nodes) oi.producer = some x →
              ni.producer = x) ∧
            (lookupMap (cloneMap M.nextId F.nodes) oi.producer = none →
              ni = oi ∧ oi.producer ∈ M.vars.map Variable.id)) old.inputs out.inputs)
          F.nodes outs := by
        refine forall₂_trans ?_ hrel1 hrel2
        rintro old copy out ⟨hnm, hkd, hty, hpr, hin, hle, hlk⟩
          ⟨hid, hnm2, hkd2, hty2, hpr2, hin2⟩
        refine ⟨by rw [hid]; exact hle, by rw [hid]; exact hlk,
          by rw [hnm2, hnm], by rw [hkd2, hkd], by rw [hty2, hty],
          by rw [hpr2, hpr], by rw [← hin]; exact hin2⟩
      refine hcomb.imp ?_
      rintro old out ⟨hle, hlk, hnm, hkd, hty, hpr, hin⟩
      refine ⟨hlk, hnm, hkd, hty, hpr, ?_, hin⟩
      intro hmem
      have := hfresh out.id hmem
      omega
  · rintro ⟨N, hN, inp, hinp, hnid, hnvar⟩
    by_cases hhf : M.hasFunction newName = true
    · unfold Function.clone
      rw [if_pos hhf]
    · unfold Function.clone
      rw [if_neg hhf]
      have hattr := cloneNodes_rel F.nodes M.nextId
      obtain ⟨copy, hcm, hrel⟩ := forall₂_mem_left hattr N hN
      have hrwnone : rewriteNodesGo (cloneMap M.nextId F.nodes)
          (M.vars.map Variable.id) (cloneNodes M.nextId F.nodes) = none := by
        apply rewriteNodesGo_none_of
        refine ⟨copy, hcm, ?_⟩
        apply rewriteInputs_none_of
        refine ⟨inp, ?_, ?_⟩
        · rw [hrel.2.2.2.2.1]; exact hinp
        · unfold rewriteInput
          rw [lookup_none_of_not_mem _ _ (by rw [cloneMap_fst]; exact hnid)]
          simp [hnvar]
      simp only [hrwnone]

theorem clone_C2_witness :
    ∃ newF m M2,
      Function.clone
        ⟨[], [⟨0, "v", ⟨ElemKind.FloatTy, [1], 0, 0⟩, VisibilityKind.Public, TrainKind.None⟩],
          [⟨"f", [⟨1, "a", NodeKind.Concat, ⟨ElemKind.FloatTy, [1], 0, 0⟩, [⟨0, 0⟩], none, [0], true⟩,
                  ⟨2, "b", NodeKind.Concat, ⟨ElemKind.FloatTy, [1], 0, 0⟩, [⟨1, 0⟩], none, [0], true⟩]⟩],
          0, 3⟩
        ⟨"f", [⟨1, "a", NodeKind.Concat, ⟨ElemKind.FloatTy, [1], 0, 0⟩, [⟨0, 0⟩], none, [0], true⟩,
               ⟨2, "b", NodeKind.Concat, ⟨ElemKind.FloatTy, [1], 0, 0⟩, [⟨1, 0⟩], none, [0], true⟩]⟩
        ("g") = some (newF, m, M2) ∧
      newF.nodes.length = 2 ∧
      m.map Prod.fst = [1, 2] := by
  obtain ⟨newF, m, M2, heq, _, _, hlen, hfst, _, _⟩ :=
    (clone_C2
      ⟨[], [⟨0, "v", ⟨ElemKind.FloatTy, [1], 0, 0⟩, VisibilityKind.Public, TrainKind.None⟩],
        [⟨"f", [⟨1, "a", NodeKind.Concat, ⟨ElemKind.FloatTy, [1], 0, 0⟩, [⟨0, 0⟩], none, [0], true⟩,
                ⟨2, "b", NodeKind.Concat, ⟨ElemKind.FloatTy, [1], 0, 0⟩, [⟨1, 0⟩], none, [0], true⟩]⟩],
        0, 3⟩
      ⟨"f", [⟨1, "a", NodeKind.Concat, ⟨ElemKind.FloatTy, [1], 0, 0⟩, [⟨0, 0⟩], none, [0], true⟩,
             ⟨2, "b", NodeKind.Concat, ⟨ElemKind.FloatTy, [1], 0, 0⟩, [⟨1, 0⟩], none, [0], true⟩]⟩
      ("g")).1 (by decide) (by decide) (by decide) (by decide)
  exact ⟨newF, m, M2, heq, hlen, hfst⟩

end Glow
